import Mathlib

/-
Verification development for `torch/distributed/_tensor/sharding_prop.py`:
a shallow embedding of the sharding-propagation engine (DTensor placement
propagation over an isolated trial execution graph) together with theorems
about its behaviour.

Modelling conventions:
 * Python exceptions are modelled with `Except PropError`.
 * The mutable `meta` dictionaries attached to fx graph nodes are modelled as
   an explicit state `Metas : Nat → NodeMeta` indexed by node position.
 * Every invocation of a sharding rule is recorded in an instrumentation log
   (the list of schemas the rule was invoked on), so that "the rule was
   invoked exactly once / never" is expressible.
 * Rules may raise; a rule is `OpSchema → Except String RuleOutput` where the
   `String` is the message of the raised exception.
-/

namespace ShardingProp

/-- A single placement tag of one device-mesh dimension: replicated,
sharded on a tensor dimension, or a pending partial reduction. -/
inductive Placement where
  | replicate
  | shard (dim : Nat)
  | partRed
deriving DecidableEq, Repr

/-- Tensor metadata carried by a spec: shape, strides, dtype and the
gradient-tracking flag (the fields read by `_rebuild_tensor_from_dtensor`). -/
structure TensorMeta where
  shape : List Nat
  strideV : List Nat
  dtype : Nat
  requires_grad : Bool
deriving DecidableEq, Repr

/-- `DTensorSpec`: placements of one operand plus optional tensor metadata.
The `tensor_meta` field is mutable in the source (`unwrap_spec_from_node`
assigns it); mutation is modelled by returning an updated copy through the
explicit `Metas` state. -/
structure DTensorSpec where
  placements : List Placement
  tensor_meta : Option TensorMeta
deriving DecidableEq, Repr

mutual
/-- A value occurring in an `OpSchema` argument position, or attached as a
node's `meta["sharding"]`.  `spec` is a `DTensorSpec`, `plain` a non-tensor
scalar argument, and `res` is a raw `OutputSharding` object: the source
stores the whole result object in `op_node.meta["sharding"]` (line 207), and
`unwrap_spec_from_node` can later inject a `tensor_meta` attribute into it,
so such an object can flow into schemas and outputs. -/
inductive ArgVal where
  | spec (s : DTensorSpec)
  | plain (v : Nat)
  | res (o : RuleOutput) (tm : Option TensorMeta)

/-- `OutputSharding` as produced and mutated by `run_op_prop`: an optional
resolved output spec, optional schema suggestions, optional failure reason. -/
inductive RuleOutput where
  | mk (output_spec : Option DTensorSpec)
      (schema_suggestions : Option (List OpSchema))
      (failed_reason : Option String)

/-- `OpSchema`: the operator's signature identifier plus the (already
pytree-flattened) positional and keyword argument values.  Keyword arguments
are modelled as an association list in key-sorted order (pytree flattening
of a dict visits keys in sorted order). -/
inductive OpSchema where
  | mk (func_schema : String)
      (args_schema : List ArgVal)
      (kwargs_schema : List (String × ArgVal))
end

def RuleOutput.output_spec : RuleOutput → Option DTensorSpec
  | .mk o _ _ => o

def RuleOutput.schema_suggestions : RuleOutput → Option (List OpSchema)
  | .mk _ s _ => s

def RuleOutput.failed_reason : RuleOutput → Option String
  | .mk _ _ f => f

def OpSchema.func_schema : OpSchema → String
  | .mk f _ _ => f

def OpSchema.args_schema : OpSchema → List ArgVal
  | .mk _ a _ => a

def OpSchema.kwargs_schema : OpSchema → List (String × ArgVal)
  | .mk _ _ k => k

mutual
/-- Structural equality on argument values (Python `__eq__`). -/
def ArgVal.beq : ArgVal → ArgVal → Bool
  | .spec s, .spec t => decide (s = t)
  | .plain v, .plain w => decide (v = w)
  | .res o tm, .res o' tm' => o.beq o' && decide (tm = tm')
  | _, _ => false

/-- Structural equality on rule outputs. -/
def RuleOutput.beq : RuleOutput → RuleOutput → Bool
  | .mk os ss fr, .mk os' ss' fr' =>
    decide (os = os') && OpSchema.beqListOpt ss ss' && decide (fr = fr')

def OpSchema.beqListOpt : Option (List OpSchema) → Option (List OpSchema) → Bool
  | none, none => true
  | some l, some l' => OpSchema.beqList l l'
  | _, _ => false

def OpSchema.beqList : List OpSchema → List OpSchema → Bool
  | [], [] => true
  | a :: l, b :: m => a.beq b && OpSchema.beqList l m
  | _, _ => false

/-- Structural equality on operation schemas: two schemas are equal iff their
signature and operand-value trees are structurally equal (this is the cache
key equality of the Caching Decorator). -/
def OpSchema.beq : OpSchema → OpSchema → Bool
  | .mk f a k, .mk f' a' k' =>
    decide (f = f') && ArgVal.beqList a a' && ArgVal.beqKwList k k'

def ArgVal.beqList : List ArgVal → List ArgVal → Bool
  | [], [] => true
  | a :: l, b :: m => a.beq b && ArgVal.beqList l m
  | _, _ => false

def ArgVal.beqKwList : List (String × ArgVal) → List (String × ArgVal) → Bool
  | [], [] => true
  | (k, a) :: l, (k', b) :: m => decide (k = k') && a.beq b && ArgVal.beqKwList l m
  | _, _ => false
end


/-- The `op` field of an fx graph node. -/
inductive NodeOp where
  | placeholder
  | call_function (target : String)
  | output
  | other (kind : String)
deriving DecidableEq, Repr

/-- One entry of a node's `args`/`kwargs`: either a reference to another graph
node (by its position in the graph's node list) or a constant value. -/
inductive NodeArg where
  | nodeRef (i : Nat)
  | const (a : ArgVal)

/-- An fx graph node: its kind and its argument lists.  Node identity is the
node's position in the graph's node list. -/
structure Node where
  op : NodeOp
  args : List NodeArg
  kwargs : List (String × NodeArg)

/-- The `meta` dictionary of a node, restricted to the two keys the
propagator reads and writes.  `none` models an absent key (reading an absent
key raises `KeyError`). -/
structure NodeMeta where
  sharding : Option ArgVal
  tensor_meta : Option TensorMeta

/-- The mutable node-metadata state of a trial graph: node position to meta. -/
def Metas : Type := Nat → NodeMeta

/-- Write the `sharding` entry of node `i`. -/
def setSharding (i : Nat) (a : ArgVal) (m : Metas) : Metas :=
  fun j => if j = i then { m i with sharding := some a } else m j

/-- The exceptions the propagator can raise. -/
inductive PropError where
  /-- `NotImplementedError`: no rule registered for the operator. -/
  | notImplemented (op : String)
  /-- `RuntimeError` wrapping an exception raised by the rule's first
  invocation, carrying the operator, the input schema and the message. -/
  | ruleFailed (op : String) (schema : OpSchema) (e : String)
  /-- `RuntimeError` raised when the rule reports a failure reason. -/
  | propFailed (op : String) (schema : OpSchema) (reason : String)
  /-- Exception raised by a rule and not caught by any handler (the second,
  retry invocation is outside the `try` block). -/
  | ruleExn (e : String)
  /-- `ValueError`: unsupported node kind in the trial graph. -/
  | valueError (kind : String)
  /-- `KeyError` on a missing `meta` entry. -/
  | keyError (k : String)
  /-- `IndexError`: list index out of range. -/
  | indexError
  /-- `NameError`: local variable referenced before assignment. -/
  | nameError (n : String)
  /-- `AttributeError`, e.g. reading `schema_suggestions` of `None` or
  assigning an attribute on a non-object value. -/
  | attributeError (n : String)
  /-- `AssertionError` from `_rebuild_tensor_from_dtensor`. -/
  | assertionError

/-- The rule registry `op_to_rules`: operator identity to optional rule
(`dict.get`).  A rule maps a schema to an `OutputSharding` or raises. -/
def Rules : Type := String → Option (OpSchema → Except String RuleOutput)

/--
`unwrap_spec_from_node` (source lines 21-24):

    spec = n.meta["sharding"]
    spec.tensor_meta = n.meta["tensor_meta"]
    return spec

Reads the attached sharding object of node `i`, overwrites its `tensor_meta`
attribute with the node's `tensor_meta` metadata (an in-place mutation of the
shared object, hence the updated `Metas`), and returns it.  If the attached
object is a raw `OutputSharding` (a `call_function` node), the attribute is
injected into that object; if it is a plain value the assignment raises
`AttributeError`.
-/
def unwrap_spec_from_node (i : Nat) (m : Metas) :
    Except PropError ArgVal × Metas :=
  match (m i).sharding with
  | none => (.error (.keyError "sharding"), m)
  | some sh =>
    match (m i).tensor_meta with
    | none => (.error (.keyError "tensor_meta"), m)
    | some tm =>
      match sh with
      | .spec s =>
          let s' : ArgVal := .spec { s with tensor_meta := some tm }
          (.ok s', setSharding i s' m)
      | .res o _ =>
          let s' : ArgVal := .res o (some tm)
          (.ok s', setSharding i s' m)
      | .plain _ => (.error (.attributeError "tensor_meta"), m)

/-- `tree_map_only(Node, unwrap_spec_from_node, args)`: node references are
unwrapped left to right (mutating the metas as it goes, stopping at the
first exception), constants pass through unchanged. -/
def unwrapArgs : List NodeArg → Metas → Except PropError (List ArgVal) × Metas
  | [], m => (.ok [], m)
  | .const a :: rest, m =>
    match unwrapArgs rest m with
    | (.error e, m') => (.error e, m')
    | (.ok l, m') => (.ok (a :: l), m')
  | .nodeRef i :: rest, m =>
    match unwrap_spec_from_node i m with
    | (.error e, m') => (.error e, m')
    | (.ok a, m') =>
      match unwrapArgs rest m' with
      | (.error e, m2) => (.error e, m2)
      | (.ok l, m2) => (.ok (a :: l), m2)

/-- As `unwrapArgs`, for the keyword-argument association list. -/
def unwrapKwargs :
    List (String × NodeArg) → Metas → Except PropError (List (String × ArgVal)) × Metas
  | [], m => (.ok [], m)
  | (k, .const a) :: rest, m =>
    match unwrapKwargs rest m with
    | (.error e, m') => (.error e, m')
    | (.ok l, m') => (.ok ((k, a) :: l), m')
  | (k, .nodeRef i) :: rest, m =>
    match unwrap_spec_from_node i m with
    | (.error e, m') => (.error e, m')
    | (.ok a, m') =>
      match unwrapKwargs rest m' with
      | (.error e, m2) => (.error e, m2)
      | (.ok l, m2) => (.ok ((k, a) :: l), m2)

/--
`ShardingPropagator.run_op_prop` (source lines 170-247) on the
`call_function` node at position `i` with target `op_call` and argument
lists `nargs`/`nkwargs`.

Returns the node's `OutputSharding`, the updated metas, and the
instrumentation log of schemas the rule was invoked on.  Mirrors the source:

 * absent rule: raise `NotImplementedError` naming the operator;
 * build the node schema by unwrapping argument nodes;
 * first rule invocation inside `try`: an exception is re-raised as a
   `RuntimeError` carrying operator, schema and message;
 * `op_node.meta["sharding"] = output_sharding` stores the whole result
   object; later in-place mutations of that object are modelled by storing
   the mutated object again;
 * output spec present: overwrite `schema_suggestions` with `[op_schema]`;
 * output spec and suggestions both absent: raise if a failure reason is
   present, else set `schema_suggestions` to `[op_schema]`;
 * suggestions present: take the first (`[0]` raises `IndexError` on an
   empty list), re-invoke the rule on it outside any `try` (an exception
   escapes unwrapped), and fill in `output_spec` from that second result.
-/
def run_op_prop (rules : Rules) (op_call : String)
    (nargs : List NodeArg) (nkwargs : List (String × NodeArg))
    (i : Nat) (m : Metas) :
    Except PropError RuleOutput × Metas × List OpSchema :=
  match rules op_call with
  | none => (.error (.notImplemented op_call), m, [])
  | some sharding_prop_func =>
    match unwrapArgs nargs m with
    | (.error e, m1) => (.error e, m1, [])
    | (.ok args_schema, m1) =>
      match unwrapKwargs nkwargs m1 with
      | (.error e, m2) => (.error e, m2, [])
      | (.ok kwargs_schema, m2) =>
        let op_schema : OpSchema := .mk op_call args_schema kwargs_schema
        match sharding_prop_func op_schema with
        | .error e => (.error (.ruleFailed op_call op_schema e), m2, [op_schema])
        | .ok os0 =>
          let m3 := setSharding i (.res os0 none) m2
          match os0 with
          | .mk (some spec0) _ fr =>
            let os1 : RuleOutput := .mk (some spec0) (some [op_schema]) fr
            (.ok os1, setSharding i (.res os1 none) m3, [op_schema])
          | .mk none none fr =>
            match fr with
            | some reason =>
                (.error (.propFailed op_call op_schema reason), m3, [op_schema])
            | none =>
              let os1 : RuleOutput := .mk none (some [op_schema]) none
              (.ok os1, setSharding i (.res os1 none) m3, [op_schema])
          | .mk none (some suggestions) fr =>
            match suggestions with
            | [] => (.error .indexError, m3, [op_schema])
            | suggested_input_schema :: _ =>
              match sharding_prop_func suggested_input_schema with
              | .error e =>
                  (.error (.ruleExn e), m3, [op_schema, suggested_input_schema])
              | .ok propagation_res =>
                let os1 : RuleOutput :=
                  .mk propagation_res.output_spec (some suggestions) fr
                (.ok os1, setSharding i (.res os1 none) m3,
                  [op_schema, suggested_input_schema])

/-- The final `OutputSharding` assembled by `run_graph_prop` (source line 144):
`OutputSharding(output_spec, schema_suggestions=output_sharding.schema_suggestions)`.
Its `output_spec` is the list of unwrapped sharding objects of the output
node's input nodes. -/
structure GraphOutput where
  output_spec : List ArgVal
  schema_suggestions : Option (List OpSchema)

/-- The local state of the `for node in op_graph.graph.nodes` loop:
the current node position, the placeholder cursor, the two local variables
`output_sharding` (initialised to `None`) and `output_spec` (unbound until
the output node is processed; `none` models "unbound"), the node metas,
and the rule-invocation log. -/
structure WalkState where
  idx : Nat
  pidx : Nat
  output_sharding : Option RuleOutput
  output_spec_var : Option (List ArgVal)
  metas : Metas
  log : List OpSchema

/-- `tree_map_only(Node, unwrap_spec_from_node, output_nodes)`: unwrap the
attached sharding objects of the given nodes, left to right. -/
def unwrapNodes : List Nat → Metas → Except PropError (List ArgVal) × Metas
  | [], m => (.ok [], m)
  | j :: rest, m =>
    match unwrap_spec_from_node j m with
    | (.error e, m') => (.error e, m')
    | (.ok a, m') =>
      match unwrapNodes rest m' with
      | (.error e, m2) => (.error e, m2)
      | (.ok l, m2) => (.ok (a :: l), m2)

/-- The `all_input_nodes` of an output node: the node references among its
arguments (the trial graphs the propagator builds reference each input node
once, so deduplication is immaterial). -/
def outputNodeRefs (args : List NodeArg) : List Nat :=
  args.filterMap fun na =>
    match na with
    | .nodeRef j => some j
    | .const _ => none

/-- One pass of the node loop of `run_graph_prop` (source lines 110-142),
returning the final loop state and the pending exception, if one was raised.

 * placeholder: index `flat_args_sharding[placeholder_idx]` (out of range
   raises `IndexError`); if the entry is a `DTensorSpec`, attach it as the
   node's `meta["sharding"]`; either way advance the cursor;
 * `call_function`: delegate to `run_op_prop`, retaining its result as the
   current `output_sharding`;
 * output: unwrap the sharding objects of the node's input nodes into the
   `output_spec` local variable;
 * any other kind: raise `ValueError`.
-/
def walkNodes (rules : Rules) (flat : List ArgVal) :
    List Node → WalkState → WalkState × Option PropError
  | [], st => (st, none)
  | node :: rest, st =>
    match node.op with
    | .placeholder =>
      match flat[st.pidx]? with
      | none => (st, some .indexError)
      | some a =>
        let metas' := match a with
          | .spec s => setSharding st.idx (.spec s) st.metas
          | _ => st.metas
        walkNodes rules flat rest
          { st with idx := st.idx + 1, pidx := st.pidx + 1, metas := metas' }
    | .call_function target =>
      match run_op_prop rules target node.args node.kwargs st.idx st.metas with
      | (.error e, m', lg) =>
          ({ st with metas := m', log := st.log ++ lg }, some e)
      | (.ok os, m', lg) =>
        walkNodes rules flat rest
          { st with idx := st.idx + 1, metas := m',
                    output_sharding := some os, log := st.log ++ lg }
    | .output =>
      match unwrapNodes (outputNodeRefs node.args) st.metas with
      | (.error e, m') => ({ st with metas := m' }, some e)
      | (.ok l, m') =>
        walkNodes rules flat rest
          { st with idx := st.idx + 1, metas := m', output_spec_var := some l }
    | .other kind => (st, some (.valueError kind))

/--
`ShardingPropagator.run_graph_prop` (source lines 103-144): walk the trial
graph's nodes, then build the final result

    OutputSharding(output_spec, schema_suggestions=output_sharding.schema_suggestions)

where an unbound `output_spec` raises `NameError` (no output node was seen)
and `output_sharding` still being `None` raises `AttributeError` (no
`call_function` node was processed).  Returns the result, the final metas
and the rule-invocation log.
-/
def run_graph_prop (rules : Rules) (g : List Node) (flat : List ArgVal)
    (m : Metas) : Except PropError GraphOutput × Metas × List OpSchema :=
  match walkNodes rules flat g ⟨0, 0, none, none, m, []⟩ with
  | (st, some e) => (.error e, st.metas, st.log)
  | (st, none) =>
    match st.output_spec_var with
    | none => (.error (.nameError "output_spec"), st.metas, st.log)
    | some l =>
      match st.output_sharding with
      | none => (.error (.attributeError "schema_suggestions"), st.metas, st.log)
      | some os => (.ok ⟨l, os.schema_suggestions⟩, st.metas, st.log)

/--
`_rebuild_tensor_from_dtensor` (source lines 38-50), under fake mode: the
fake tensor is fully described by the spec's tensor metadata, and the
function asserts that the metadata is present.
-/
def rebuild_tensor_from_dtensor (s : DTensorSpec) : Except PropError TensorMeta :=
  match s.tensor_meta with
  | none => .error .assertionError
  | some tm => .ok tm

/-- Run `rebuild_tensor_from_dtensor` over every `DTensorSpec` leaf
(`tree_map_only(DTensorSpec, ...)`), failing on the first assertion error. -/
def rebuildAll : List ArgVal → Except PropError Unit
  | [] => .ok ()
  | .spec s :: rest =>
    match rebuild_tensor_from_dtensor s with
    | .error e => .error e
    | .ok _ => rebuildAll rest
  | _ :: rest => rebuildAll rest

/-- Node-argument references for the call node: one reference per flattened
spec entry (at its placeholder's position, starting from `i0`), constants
inline for non-tensor entries. -/
def mkRefs : Nat → List ArgVal → List NodeArg
  | _, [] => []
  | i, a :: rest =>
    (match a with
     | .spec _ => NodeArg.nodeRef i
     | _ => NodeArg.const a) :: mkRefs (i + 1) rest

/-- Keyword-argument references for the call node, analogous to `mkRefs`. -/
def mkKwRefs : Nat → List (String × ArgVal) → List (String × NodeArg)
  | _, [] => []
  | i, (k, a) :: rest =>
    (k, match a with
        | .spec _ => NodeArg.nodeRef i
        | _ => NodeArg.const a) :: mkKwRefs (i + 1) rest

/-- One placeholder node per flattened operand entry. -/
def phNodes : List ArgVal → List Node
  | [] => []
  | _ :: rest => ⟨.placeholder, [], []⟩ :: phNodes rest

/-- Modelled from the spec: `get_isolated_graphmodule` (from
`torch.fx.experimental.proxy_tensor`, not part of this repository) builds,
under fake mode, a trial graph whose leaf placeholder nodes correspond 1:1
and in argument-flattening order to the flattened operand entries, whose
internal nodes are the sub-operations the operator decomposes into, and
which ends in an output node referencing the result.  We model the
non-decomposing case: a single `call_function` node consuming the
placeholders.  The fake-tensor tracing populates each placeholder's
`meta["tensor_meta"]` from the fake operand built out of the spec's tensor
metadata, and the call node's from the fake result (`outM`, a parameter of
the model since fake execution of the operator is external). -/
def get_isolated_graphmodule (op_call : String) (args : List ArgVal)
    (kwargs : List (String × ArgVal)) (outM : TensorMeta) :
    List Node × Metas :=
  let entries := args ++ kwargs.map Prod.snd
  let n := entries.length
  let g : List Node :=
    phNodes entries
      ++ [⟨.call_function op_call, mkRefs 0 args, mkKwRefs args.length kwargs⟩]
      ++ [⟨.output, [.nodeRef n], []⟩]
  let metas : Metas := fun j =>
    match entries[j]? with
    | some (.spec s) => ⟨none, s.tensor_meta⟩
    | some _ => ⟨none, none⟩
    | none => if j = n then ⟨none, some outM⟩ else ⟨none, none⟩
  (g, metas)

/-- `tree_flatten([args_schema, kwargs_schema])`: the flattened operand
entries, positional arguments first, then keyword values. -/
def flattenSchemas (args : List ArgVal) (kwargs : List (String × ArgVal)) :
    List ArgVal :=
  args ++ kwargs.map Prod.snd

/--
`ShardingPropagator.propagate` (source lines 66-98): rebuild fake operands
from the operand specs under fake mode (asserting tensor metadata is
present), build the isolated trial graph, flatten the schema's positional
and keyword operand entries, and run the graph propagation.  The debug
branch is disabled (`_DEBUG_VERBOSE = False`).  `outM` parametrises the
externally computed fake output metadata.
-/
def propagate (rules : Rules) (op_call : String) (op_schema : OpSchema)
    (outM : TensorMeta) : Except PropError GraphOutput × Metas × List OpSchema :=
  let args_schema := op_schema.args_schema
  let kwargs_schema := op_schema.kwargs_schema
  match rebuildAll (flattenSchemas args_schema kwargs_schema) with
  | .error e => (.error e, fun _ => ⟨none, none⟩, [])
  | .ok _ =>
    let (op_graph, metas0) :=
      get_isolated_graphmodule op_call args_schema kwargs_schema outM
    let flat_args_sharding := flattenSchemas args_schema kwargs_schema
    run_graph_prop rules op_graph flat_args_sharding metas0

/-- Lookup in the propagation cache, by structural schema equality. -/
def lookupCache : List (OpSchema × GraphOutput) → OpSchema → Option GraphOutput
  | [], _ => none
  | (k, v) :: rest, s => if k.beq s then some v else lookupCache rest s

/--
`_CachingPropagator.propagate` (source lines 295-309): if the schema is a
cache key, return the stored result (nothing else runs — in particular no
rule is invoked, hence the empty log); otherwise delegate to
`ShardingPropagator.propagate`, store the result keyed by the schema, and
return it.  A raised exception propagates without touching the cache.
-/
def cachedPropagate (rules : Rules) (cache : List (OpSchema × GraphOutput))
    (op_call : String) (op_schema : OpSchema) (outM : TensorMeta) :
    Except PropError GraphOutput × List (OpSchema × GraphOutput) × List OpSchema :=
  match lookupCache cache op_schema with
  | some r => (.ok r, cache, [])
  | none =>
    match propagate rules op_call op_schema outM with
    | (.error e, _, lg) => (.error e, cache, lg)
    | (.ok r, _, lg) => (.ok r, (op_schema, r) :: cache, lg)

/-- Number of placeholder nodes of a trial graph. -/
def countPlaceholders : List Node → Nat
  | [] => 0
  | node :: rest =>
    (match node.op with
     | .placeholder => 1
     | _ => 0) + countPlaceholders rest

/-- The metadata state after the placeholder phase of the walk: for each
entry of `es` that is a spec, the sharding of the corresponding node
(starting at position `i`) has been attached. -/
def attachPh (i : Nat) (es : List ArgVal) (m : Metas) : Metas :=
  match es with
  | [] => m
  | e :: rest =>
    attachPh (i + 1) rest
      (match e with
       | .spec s => setSharding i (.spec s) m
       | _ => m)

/-- Placement provenance: every spec attached in the state `m'` has the
placements of a spec already attached in `m` at the same node, or of a spec
among the flattened input entries.  This is the frame property "the walk
never modifies the partitioning of an operand spec". -/
def SpecFrom (m m' : Metas) (flat : List ArgVal) : Prop :=
  ∀ j s', (m' j).sharding = some (.spec s') →
    (∃ s, (m j).sharding = some (.spec s) ∧ s.placements = s'.placements) ∨
    (∃ s, ArgVal.spec s ∈ flat ∧ s.placements = s'.placements)

/-! Concrete fixtures used by witnesses and counterexamples: a sharded
operand spec with tensor metadata, stub rules in the styles of the spec's
testable properties, and a one-node metadata state. -/

/-- A concrete tensor metadata value. -/
def tmW : TensorMeta := ⟨[4, 4], [4, 1], 0, false⟩

/-- A concrete operand spec: sharded on dim 0, metadata present. -/
def specW : DTensorSpec := ⟨[.shard 0], some tmW⟩

/-- A replicated variant of `specW`. -/
def specR : DTensorSpec := ⟨[.replicate], some tmW⟩

/-- A concrete resolved output spec returned by stub rules. -/
def specO : DTensorSpec := ⟨[.shard 0], none⟩

/-- The canonical input schema of the fixtures. -/
def schW : OpSchema := .mk "add" [.spec specW] []

/-- The suggested (redistributed) schema of the fixtures. -/
def schS : OpSchema := .mk "add" [.spec specR] []

/-- A registry with a single rule registered for operator `add`. -/
def rulesOf (r : OpSchema → Except String RuleOutput) : Rules :=
  fun s => if s = "add" then some r else none

/-- Stub rule: always resolves to `specO`. -/
def ruleResolved : OpSchema → Except String RuleOutput :=
  fun _ => .ok (.mk (some specO) none none)

/-- Stub rule: resolves on a replicated first operand, otherwise suggests
the redistributed schema `schS`. -/
def ruleSuggest : OpSchema → Except String RuleOutput := fun sc =>
  match sc with
  | .mk _ (ArgVal.spec ⟨[Placement.replicate], _⟩ :: _) _ =>
      .ok (.mk (some specO) none none)
  | _ => .ok (.mk none (some [schS]) none)

/-- Stub rule: returns a non-null but empty suggestion list. -/
def ruleEmptySugg : OpSchema → Except String RuleOutput :=
  fun _ => .ok (.mk none (some []) none)

/-- Stub rule: scalar outcome, `(null, null, null)`. -/
def ruleScalar : OpSchema → Except String RuleOutput :=
  fun _ => .ok (.mk none none none)

/-- Stub rule: unresolvable with an explicit failure reason. -/
def ruleReason : OpSchema → Except String RuleOutput :=
  fun _ => .ok (.mk none none (some "shard mismatch"))

/-- Stub rule: raises on every invocation. -/
def ruleRaise : OpSchema → Except String RuleOutput :=
  fun _ => .error "boom"

/-- Stub rule: suggests `schS` on the original schema, raises on the
(replicated) suggested schema — exercises the second, retry invocation. -/
def ruleSuggestRaise : OpSchema → Except String RuleOutput := fun sc =>
  match sc with
  | .mk _ (ArgVal.spec ⟨[Placement.replicate], _⟩ :: _) _ => .error "boom2"
  | _ => .ok (.mk none (some [schS]) none)

/-- A metadata state with `specW` attached to node 0 (as after the
placeholder phase of a one-operand graph). -/
def metasW : Metas :=
  fun j => if j = 0 then ⟨some (.spec specW), some tmW⟩ else ⟨none, none⟩

/-- A metadata state whose node-0 spec has no tensor metadata while the
node's `meta["tensor_meta"]` is present. -/
def metasMut : Metas :=
  fun j => if j = 0 then ⟨some (.spec ⟨[.shard 0], none⟩), some tmW⟩ else ⟨none, none⟩

/-! ## Reflexivity of structural equality -/

mutual
theorem argvalBeq_refl : ∀ a : ArgVal, a.beq a = true
  | .spec s => by simp [ArgVal.beq]
  | .plain v => by simp [ArgVal.beq]
  | .res o tm => by simp [ArgVal.beq, ruleOutputBeq_refl o]

theorem ruleOutputBeq_refl : ∀ o : RuleOutput, o.beq o = true
  | .mk os ss fr => by simp [RuleOutput.beq, opSchemaBeqListOpt_refl ss]

theorem opSchemaBeqListOpt_refl :
    ∀ l : Option (List OpSchema), OpSchema.beqListOpt l l = true
  | none => by simp [OpSchema.beqListOpt]
  | some l => by simp [OpSchema.beqListOpt, opSchemaBeqList_refl l]

theorem opSchemaBeqList_refl : ∀ l : List OpSchema, OpSchema.beqList l l = true
  | [] => by simp [OpSchema.beqList]
  | a :: l => by simp [OpSchema.beqList, opSchemaBeq_refl a, opSchemaBeqList_refl l]

theorem opSchemaBeq_refl : ∀ s : OpSchema, s.beq s = true
  | .mk f a k => by
      simp [OpSchema.beq, argvalBeqList_refl a, argvalBeqKwList_refl k]

theorem argvalBeqList_refl : ∀ l : List ArgVal, ArgVal.beqList l l = true
  | [] => by simp [ArgVal.beqList]
  | a :: l => by simp [ArgVal.beqList, argvalBeq_refl a, argvalBeqList_refl l]

theorem argvalBeqKwList_refl :
    ∀ l : List (String × ArgVal), ArgVal.beqKwList l l = true
  | [] => by simp [ArgVal.beqKwList]
  | (k, a) :: l => by
      simp [ArgVal.beqKwList, argvalBeq_refl a, argvalBeqKwList_refl l]
end

/-! ## Helper lemmas about the metadata state and the graph walk -/

/-- Writing back the sharding value already attached leaves the state
unchanged (the source mutates the attached object in place). -/
theorem setSharding_self (i : Nat) (a : ArgVal) (m : Metas)
    (h : (m i).sharding = some a) : setSharding i a m = m := by
  funext j
  unfold setSharding
  by_cases hj : j = i
  · subst hj
    cases hm : m j with
    | mk sh tm => rw [hm] at h; simp_all
  · simp [hj]

/-- `setSharding` never changes a node's tensor metadata. -/
theorem setSharding_tensor_meta (i : Nat) (a : ArgVal) (m : Metas) (k : Nat) :
    ((setSharding i a m) k).tensor_meta = (m k).tensor_meta := by
  unfold setSharding
  by_cases h : k = i <;> simp [h]

/-- Nodes outside the placeholder range are untouched by the attach phase. -/
theorem attachPh_outside (es : List ArgVal) (i : Nat) (m : Metas) (k : Nat)
    (h : k < i ∨ i + es.length ≤ k) : attachPh i es m k = m k := by
  induction es generalizing i m with
  | nil => rfl
  | cons e rest ih =>
    have hk : k ≠ i := by
      rcases h with h | h
      · omega
      · simp only [List.length_cons] at h; omega
    have h' : k < i + 1 ∨ (i + 1) + rest.length ≤ k := by
      rcases h with h | h
      · left; omega
      · right; simp only [List.length_cons] at h; omega
    cases e with
    | spec s =>
      show attachPh (i + 1) rest (setSharding i (.spec s) m) k = m k
      rw [ih (i + 1) (setSharding i (.spec s) m) h']
      simp [setSharding, hk]
    | plain v => exact ih (i + 1) m h'
    | res o tmv => exact ih (i + 1) m h'

/-- At the position of a spec entry, the attach phase writes exactly that
spec as the node's sharding and keeps the node's tensor metadata. -/
theorem attachPh_get_spec (es : List ArgVal) (i : Nat) (m : Metas) (j : Nat)
    (s : DTensorSpec) (h : es[j]? = some (.spec s)) :
    attachPh i es m (i + j) = ⟨some (.spec s), (m (i + j)).tensor_meta⟩ := by
  induction es generalizing i m j with
  | nil => simp at h
  | cons e rest ih =>
    cases j with
    | zero =>
      simp only [List.getElem?_cons_zero, Option.some.injEq] at h
      subst h
      show attachPh (i + 1) rest (setSharding i (.spec s) m) i =
        ⟨some (.spec s), (m (i + 0)).tensor_meta⟩
      rw [attachPh_outside rest (i + 1) (setSharding i (.spec s) m) i
          (Or.inl (by omega))]
      simp [setSharding]
    | succ j' =>
      simp only [List.getElem?_cons_succ] at h
      have harith : i + (j' + 1) = (i + 1) + j' := by omega
      cases e with
      | spec t =>
        show attachPh (i + 1) rest (setSharding i (.spec t) m) (i + (j' + 1)) = _
        rw [harith, ih (i + 1) (setSharding i (.spec t) m) j' h]
        rw [setSharding_tensor_meta, ← harith]
      | plain v =>
        show attachPh (i + 1) rest m (i + (j' + 1)) = _
        rw [harith, ih (i + 1) m j' h, ← harith]
      | res o tmv =>
        show attachPh (i + 1) rest m (i + (j' + 1)) = _
        rw [harith, ih (i + 1) m j' h, ← harith]

/-- The placeholder phase of the walk: consuming the placeholder nodes of
the entries `es` (with the flat list still holding `es` at the cursor)
attaches the spec entries and advances both counters. -/
theorem walk_ph (rules : Rules) (flat : List ArgVal) (es rem : List ArgVal)
    (rest : List Node) (st : WalkState)
    (hdrop : flat.drop st.pidx = es ++ rem) :
    walkNodes rules flat (phNodes es ++ rest) st =
      walkNodes rules flat rest
        { st with idx := st.idx + es.length, pidx := st.pidx + es.length,
                  metas := attachPh st.idx es st.metas } := by
  induction es generalizing st with
  | nil =>
    show walkNodes rules flat rest st = _
    congr 1
  | cons e rest' ih =>
    have h0 : flat[st.pidx]? = some e := by
      have hg := List.getElem?_drop flat st.pidx 0
      rw [hdrop] at hg
      simpa using hg.symm
    have hdrop' : flat.drop (st.pidx + 1) = rest' ++ rem := by
      rw [← List.tail_drop, hdrop]
      rfl
    have harith1 : st.idx + 1 + rest'.length = st.idx + (rest'.length + 1) := by
      omega
    have harith2 : st.pidx + 1 + rest'.length = st.pidx + (rest'.length + 1) := by
      omega
    cases e with
    | spec s =>
      have hstep : walkNodes rules flat (phNodes (ArgVal.spec s :: rest') ++ rest) st =
          walkNodes rules flat (phNodes rest' ++ rest)
            { st with idx := st.idx + 1, pidx := st.pidx + 1,
                      metas := setSharding st.idx (.spec s) st.metas } := by
        show walkNodes rules flat (⟨.placeholder, [], []⟩ :: (phNodes rest' ++ rest)) st = _
        simp only [walkNodes, h0]
      rw [hstep, ih _ hdrop']
      simp only [List.length_cons, harith1, harith2]
      rfl
    | plain v =>
      have hstep : walkNodes rules flat (phNodes (ArgVal.plain v :: rest') ++ rest) st =
          walkNodes rules flat (phNodes rest' ++ rest)
            { st with idx := st.idx + 1, pidx := st.pidx + 1, metas := st.metas } := by
        show walkNodes rules flat (⟨.placeholder, [], []⟩ :: (phNodes rest' ++ rest)) st = _
        simp only [walkNodes, h0]
      rw [hstep, ih _ hdrop']
      simp only [List.length_cons, harith1, harith2]
      rfl
    | res o tmv =>
      have hstep : walkNodes rules flat (phNodes (ArgVal.res o tmv :: rest') ++ rest) st =
          walkNodes rules flat (phNodes rest' ++ rest)
            { st with idx := st.idx + 1, pidx := st.pidx + 1, metas := st.metas } := by
        show walkNodes rules flat (⟨.placeholder, [], []⟩ :: (phNodes rest' ++ rest)) st = _
        simp only [walkNodes, h0]
      rw [hstep, ih _ hdrop']
      simp only [List.length_cons, harith1, harith2]
      rfl

/-- The walk never reads the flat operand list at non-placeholder nodes. -/
theorem walk_noph (rules : Rules) (flat flat' : List ArgVal) (ns : List Node)
    (st : WalkState) (h : ∀ n ∈ ns, n.op ≠ .placeholder) :
    walkNodes rules flat ns st = walkNodes rules flat' ns st := by
  induction ns generalizing st with
  | nil => rfl
  | cons node rest ih =>
    have hn : node.op ≠ .placeholder := h node (by simp)
    have hr : ∀ n ∈ rest, n.op ≠ .placeholder := fun n hm => h n (by simp [hm])
    cases hop : node.op with
    | placeholder => exact absurd hop hn
    | call_function t =>
      simp only [walkNodes, hop]
      rcases hro : run_op_prop rules t node.args node.kwargs st.idx st.metas with
        ⟨res, m', lg⟩
      cases res with
      | error e => rfl
      | ok os => exact ih _ hr
    | output =>
      simp only [walkNodes, hop]
      rcases hun : unwrapNodes (outputNodeRefs node.args) st.metas with ⟨res, m'⟩
      cases res with
      | error e => rfl
      | ok l => exact ih _ hr
    | other kind => simp only [walkNodes, hop]

/-- With no `call_function` node in the remaining graph, the walk's
`output_sharding` local variable stays `None`. -/
theorem walk_nocall (rules : Rules) (flat : List ArgVal) (ns : List Node)
    (st : WalkState) (h : ∀ n ∈ ns, ∀ t, n.op ≠ .call_function t)
    (hos : st.output_sharding = none) :
    (walkNodes rules flat ns st).1.output_sharding = none := by
  induction ns generalizing st with
  | nil => exact hos
  | cons node rest ih =>
    have hn : ∀ t, node.op ≠ .call_function t := h node (by simp)
    have hr : ∀ n ∈ rest, ∀ t, n.op ≠ .call_function t :=
      fun n hm => h n (by simp [hm])
    cases hop : node.op with
    | placeholder =>
      simp only [walkNodes, hop]
      cases hfa : flat[st.pidx]? with
      | none => exact hos
      | some a => exact ih _ hr hos
    | call_function t => exact absurd hop (hn t)
    | output =>
      simp only [walkNodes, hop]
      rcases hun : unwrapNodes (outputNodeRefs node.args) st.metas with ⟨res, m'⟩
      cases res with
      | error e => exact hos
      | ok l => exact ih _ hr hos
    | other kind =>
      simp only [walkNodes, hop]
      exact hos

/-- With fewer flat entries than placeholder nodes, the walk raises
`IndexError` at the first out-of-range placeholder. -/
theorem walk_ph_overflow (rules : Rules) (flat : List ArgVal)
    (es : List ArgVal) (rest : List Node) (st : WalkState)
    (hlt : flat.length < st.pidx + es.length) (hle : st.pidx ≤ flat.length) :
    ∃ st', walkNodes rules flat (phNodes es ++ rest) st = (st', some .indexError) := by
  induction es generalizing st with
  | nil =>
    simp only [List.length_nil, Nat.add_zero] at hlt
    omega
  | cons e rest' ih =>
    by_cases hp : st.pidx < flat.length
    · have h0 : flat[st.pidx]? = some flat[st.pidx] := List.getElem?_eq_getElem hp
      have hih := ih { st with
          idx := st.idx + 1, pidx := st.pidx + 1,
          metas := match flat[st.pidx] with
                   | .spec s => setSharding st.idx (.spec s) st.metas
                   | _ => st.metas }
        (by simp only [List.length_cons] at hlt; simp only []; omega)
        (by simp only []; omega)
      obtain ⟨st', hst'⟩ := hih
      refine ⟨st', ?_⟩
      show walkNodes rules flat (⟨.placeholder, [], []⟩ :: (phNodes rest' ++ rest)) st =
        (st', some .indexError)
      rw [← hst']
      simp only [walkNodes, h0]
    · have h0 : flat[st.pidx]? = none := List.getElem?_eq_none (by omega)
      refine ⟨st, ?_⟩
      show walkNodes rules flat (⟨.placeholder, [], []⟩ :: (phNodes rest' ++ rest)) st =
        (st, some .indexError)
      simp only [walkNodes, h0]

/-- Unwrapping the canonical call node's positional argument references
returns the original operand values and leaves the metadata unchanged,
provided every referenced spec already carries the node's tensor metadata. -/
theorem unwrap_mkRefs (args : List ArgVal) (i0 : Nat) (m : Metas)
    (h : ∀ j s, args[j]? = some (.spec s) →
       ∃ tm, s.tensor_meta = some tm ∧ m (i0 + j) = ⟨some (.spec s), some tm⟩) :
    unwrapArgs (mkRefs i0 args) m = (.ok args, m) := by
  induction args generalizing i0 with
  | nil => rfl
  | cons a rest ih =>
    have hrest : ∀ j s, rest[j]? = some (.spec s) →
        ∃ tm, s.tensor_meta = some tm ∧ m ((i0 + 1) + j) = ⟨some (.spec s), some tm⟩ := by
      intro j s hj
      have := h (j + 1) s (by simpa using hj)
      simpa [Nat.add_assoc, Nat.add_comm 1 j] using this
    cases a with
    | spec s =>
      obtain ⟨tm, hstm, hm⟩ := h 0 s (by simp)
      rw [Nat.add_zero] at hm
      obtain ⟨pl, stm⟩ := s
      have hstm2 : stm = some tm := hstm
      subst hstm2
      show unwrapArgs (.nodeRef i0 :: mkRefs (i0 + 1) rest) m = _
      have hunwrap : unwrap_spec_from_node i0 m = (.ok (.spec ⟨pl, some tm⟩), m) := by
        calc unwrap_spec_from_node i0 m
            = (.ok (.spec ⟨pl, some tm⟩),
               setSharding i0 (.spec ⟨pl, some tm⟩) m) := by
              unfold unwrap_spec_from_node
              rw [hm]
          _ = (.ok (.spec ⟨pl, some tm⟩), m) := by
              rw [setSharding_self i0 (.spec ⟨pl, some tm⟩) m (by rw [hm])]
      simp only [unwrapArgs, hunwrap, ih (i0 + 1) hrest]
    | plain v =>
      show unwrapArgs (.const (.plain v) :: mkRefs (i0 + 1) rest) m = _
      simp only [unwrapArgs, ih (i0 + 1) hrest]
    | res o tmv =>
      show unwrapArgs (.const (.res o tmv) :: mkRefs (i0 + 1) rest) m = _
      simp only [unwrapArgs, ih (i0 + 1) hrest]

/-- Keyword analogue of `unwrap_mkRefs`. -/
theorem unwrap_mkKwRefs (kwargs : List (String × ArgVal)) (i0 : Nat) (m : Metas)
    (h : ∀ j s, (kwargs.map Prod.snd)[j]? = some (.spec s) →
       ∃ tm, s.tensor_meta = some tm ∧ m (i0 + j) = ⟨some (.spec s), some tm⟩) :
    unwrapKwargs (mkKwRefs i0 kwargs) m = (.ok kwargs, m) := by
  induction kwargs generalizing i0 with
  | nil => rfl
  | cons ka rest ih =>
    obtain ⟨k, a⟩ := ka
    have hrest : ∀ j s, (rest.map Prod.snd)[j]? = some (.spec s) →
        ∃ tm, s.tensor_meta = some tm ∧ m ((i0 + 1) + j) = ⟨some (.spec s), some tm⟩ := by
      intro j s hj
      have := h (j + 1) s (by simpa using hj)
      simpa [Nat.add_assoc, Nat.add_comm 1 j] using this
    cases a with
    | spec s =>
      obtain ⟨tm, hstm, hm⟩ := h 0 s (by simp)
      rw [Nat.add_zero] at hm
      obtain ⟨pl, stm⟩ := s
      have hstm2 : stm = some tm := hstm
      subst hstm2
      show unwrapKwargs ((k, .nodeRef i0) :: mkKwRefs (i0 + 1) rest) m = _
      have hunwrap : unwrap_spec_from_node i0 m = (.ok (.spec ⟨pl, some tm⟩), m) := by
        calc unwrap_spec_from_node i0 m
            = (.ok (.spec ⟨pl, some tm⟩),
               setSharding i0 (.spec ⟨pl, some tm⟩) m) := by
              unfold unwrap_spec_from_node
              rw [hm]
          _ = (.ok (.spec ⟨pl, some tm⟩), m) := by
              rw [setSharding_self i0 (.spec ⟨pl, some tm⟩) m (by rw [hm])]
      simp only [unwrapKwargs, hunwrap, ih (i0 + 1) hrest]
    | plain v =>
      show unwrapKwargs ((k, .const (.plain v)) :: mkKwRefs (i0 + 1) rest) m = _
      simp only [unwrapKwargs, ih (i0 + 1) hrest]
    | res o tmv =>
      show unwrapKwargs ((k, .const (.res o tmv)) :: mkKwRefs (i0 + 1) rest) m = _
      simp only [unwrapKwargs, ih (i0 + 1) hrest]

/-- When every spec operand has tensor metadata, rebuilding the fake
operands succeeds. -/
theorem rebuildAll_ok (l : List ArgVal)
    (h : ∀ s, ArgVal.spec s ∈ l → ∃ tm, s.tensor_meta = some tm) :
    rebuildAll l = .ok () := by
  induction l with
  | nil => rfl
  | cons a rest ih =>
    have hrest : ∀ s, ArgVal.spec s ∈ rest → ∃ tm, s.tensor_meta = some tm :=
      fun s hs => h s (by simp [hs])
    cases a with
    | spec s =>
      obtain ⟨tm, htm⟩ := h s (by simp)
      show rebuildAll (.spec s :: rest) = .ok ()
      simp only [rebuildAll, rebuild_tensor_from_dtensor, htm]
      exact ih hrest
    | plain v => exact ih hrest
    | res o tmv => exact ih hrest

/-- Positional alignment of the canonical trial graph: after the placeholder
phase, every positional spec operand sits attached (with its own tensor
metadata) at its placeholder. -/
theorem align_args (op : String) (args : List ArgVal)
    (kwargs : List (String × ArgVal)) (outM : TensorMeta)
    (hmeta : ∀ s, ArgVal.spec s ∈ flattenSchemas args kwargs →
      ∃ tm, s.tensor_meta = some tm) :
    ∀ j s, args[j]? = some (.spec s) →
      ∃ tm, s.tensor_meta = some tm ∧
        attachPh 0 (flattenSchemas args kwargs)
            (get_isolated_graphmodule op args kwargs outM).2 (0 + j) =
          ⟨some (.spec s), some tm⟩ := by
  intro j s hj
  have hlt : j < args.length := by
    by_contra hcon
    push_neg at hcon
    rw [List.getElem?_eq_none hcon] at hj
    cases hj
  have hent : (flattenSchemas args kwargs)[j]? = some (.spec s) := by
    unfold flattenSchemas
    rw [List.getElem?_append_left hlt]
    exact hj
  obtain ⟨tm, htm⟩ := hmeta s (List.getElem?_mem hent)
  refine ⟨tm, htm, ?_⟩
  rw [attachPh_get_spec (flattenSchemas args kwargs) 0
    (get_isolated_graphmodule op args kwargs outM).2 j s hent]
  have hm0 : (get_isolated_graphmodule op args kwargs outM).2 (0 + j) =
      ⟨none, s.tensor_meta⟩ := by
    show (match (flattenSchemas args kwargs)[0 + j]? with
      | some (ArgVal.spec s) => (⟨none, s.tensor_meta⟩ : NodeMeta)
      | some _ => ⟨none, none⟩
      | none => if 0 + j = (flattenSchemas args kwargs).length
                then ⟨none, some outM⟩ else ⟨none, none⟩) = _
    rw [Nat.zero_add, hent]
  rw [hm0, htm]

/-- Keyword alignment of the canonical trial graph. -/
theorem align_kwargs (op : String) (args : List ArgVal)
    (kwargs : List (String × ArgVal)) (outM : TensorMeta)
    (hmeta : ∀ s, ArgVal.spec s ∈ flattenSchemas args kwargs →
      ∃ tm, s.tensor_meta = some tm) :
    ∀ j s, (kwargs.map Prod.snd)[j]? = some (.spec s) →
      ∃ tm, s.tensor_meta = some tm ∧
        attachPh 0 (flattenSchemas args kwargs)
            (get_isolated_graphmodule op args kwargs outM).2 (args.length + j) =
          ⟨some (.spec s), some tm⟩ := by
  intro j s hj
  have hent : (flattenSchemas args kwargs)[args.length + j]? = some (.spec s) := by
    unfold flattenSchemas
    rw [List.getElem?_append_right (Nat.le_add_right args.length j)]
    simpa [Nat.add_sub_cancel_left] using hj
  obtain ⟨tm, htm⟩ := hmeta s (List.getElem?_mem hent)
  refine ⟨tm, htm, ?_⟩
  rw [show args.length + j = 0 + (args.length + j) by omega]
  rw [attachPh_get_spec (flattenSchemas args kwargs) 0
    (get_isolated_graphmodule op args kwargs outM).2 (args.length + j) s hent]
  have hm0 : (get_isolated_graphmodule op args kwargs outM).2 (0 + (args.length + j)) =
      ⟨none, s.tensor_meta⟩ := by
    show (match (flattenSchemas args kwargs)[0 + (args.length + j)]? with
      | some (ArgVal.spec s) => (⟨none, s.tensor_meta⟩ : NodeMeta)
      | some _ => ⟨none, none⟩
      | none => if 0 + (args.length + j) = (flattenSchemas args kwargs).length
                then ⟨none, some outM⟩ else ⟨none, none⟩) = _
    rw [Nat.zero_add, hent]
  rw [hm0, htm]

/-- The canonical run: `propagate` on the single-operation trial graph
reduces to the per-node propagation at the call node followed by the
output-node unwrap and the final assembly. -/
theorem propagate_canonical (rules : Rules) (op schf : String)
    (args : List ArgVal) (kwargs : List (String × ArgVal)) (outM : TensorMeta)
    (hmeta : ∀ s, ArgVal.spec s ∈ flattenSchemas args kwargs →
      ∃ tm, s.tensor_meta = some tm) :
    propagate rules op (.mk schf args kwargs) outM =
      (match run_op_prop rules op (mkRefs 0 args) (mkKwRefs args.length kwargs)
          (flattenSchemas args kwargs).length
          (attachPh 0 (flattenSchemas args kwargs)
            (get_isolated_graphmodule op args kwargs outM).2) with
       | (.error e, m2, lg) => (.error e, m2, lg)
       | (.ok os, m2, lg) =>
         match unwrapNodes [(flattenSchemas args kwargs).length] m2 with
         | (.error e, m3) => (.error e, m3, lg)
         | (.ok l, m3) => (.ok ⟨l, os.schema_suggestions⟩, m3, lg)) := by
  have hreb : rebuildAll (flattenSchemas args kwargs) = .ok () :=
    rebuildAll_ok _ hmeta
  unfold propagate
  simp only [OpSchema.args_schema, OpSchema.kwargs_schema, hreb]
  show run_graph_prop rules
      (phNodes (flattenSchemas args kwargs)
        ++ [⟨.call_function op, mkRefs 0 args, mkKwRefs args.length kwargs⟩]
        ++ [⟨.output, [.nodeRef (flattenSchemas args kwargs).length], []⟩])
      (flattenSchemas args kwargs)
      (get_isolated_graphmodule op args kwargs outM).2 = _
  rw [List.append_assoc]
  unfold run_graph_prop
  rw [walk_ph rules (flattenSchemas args kwargs) (flattenSchemas args kwargs) [] _
    ⟨0, 0, none, none, (get_isolated_graphmodule op args kwargs outM).2, []⟩
    (by simp)]
  simp only [Nat.zero_add]
  rcases hro : run_op_prop rules op (mkRefs 0 args) (mkKwRefs args.length kwargs)
      (flattenSchemas args kwargs).length
      (attachPh 0 (flattenSchemas args kwargs)
        (get_isolated_graphmodule op args kwargs outM).2) with ⟨res, m2, lg⟩
  cases res with
  | error e => simp only [walkNodes, hro, List.nil_append]
  | ok os =>
    simp only [walkNodes, hro]
    rcases hun : unwrapNodes [(flattenSchemas args kwargs).length] m2 with ⟨res2, m3⟩
    cases res2 with
    | error e => simp only [outputNodeRefs, List.filterMap, hun, List.nil_append]
    | ok l => simp only [outputNodeRefs, List.filterMap, hun, List.nil_append]

/-- The builder's metadata at the call node: no sharding attached, tensor
metadata the fake output's. -/
theorem builder_meta_call (op : String) (args : List ArgVal)
    (kwargs : List (String × ArgVal)) (outM : TensorMeta) :
    (get_isolated_graphmodule op args kwargs outM).2
        (flattenSchemas args kwargs).length = ⟨none, some outM⟩ := by
  show (match (flattenSchemas args kwargs)[(flattenSchemas args kwargs).length]? with
    | some (ArgVal.spec s) => (⟨none, s.tensor_meta⟩ : NodeMeta)
    | some _ => ⟨none, none⟩
    | none => if (flattenSchemas args kwargs).length = (flattenSchemas args kwargs).length
              then ⟨none, some outM⟩ else ⟨none, none⟩) = _
  rw [List.getElem?_eq_none (Nat.le_refl _)]
  simp

/-- The builder's graph, written with the node list fully associated to the
right. -/
theorem builder_graph_eq (op : String) (args : List ArgVal)
    (kwargs : List (String × ArgVal)) (outM : TensorMeta) :
    (get_isolated_graphmodule op args kwargs outM).1 =
      phNodes (flattenSchemas args kwargs)
        ++ ([⟨.call_function op, mkRefs 0 args, mkKwRefs args.length kwargs⟩]
          ++ [⟨.output, [.nodeRef (flattenSchemas args kwargs).length], []⟩]) := by
  rw [← List.append_assoc]
  rfl

/-! ## Claim C1: the redistribution-retry protocol -/

/-- C1, counterexample: a rule whose first invocation returns a null output
spec and a non-null but EMPTY schema-suggestions sequence does not lead to
any re-invocation: `schema_suggestions[0]` raises `IndexError` (outside any
handler) and no result is returned.  The invocation log shows the rule ran
exactly once, refuting the claim as stated for this non-null suggestions
value. -/
theorem c1_retry_cex :
    (run_op_prop (rulesOf ruleEmptySugg) "add" [.nodeRef 0] [] 1 metasW).1 =
        .error .indexError
    ∧ (run_op_prop (rulesOf ruleEmptySugg) "add" [.nodeRef 0] [] 1 metasW).2.2 =
        [schW] :=
  ⟨rfl, rfl⟩

/-- C1, amended: for every per-node propagation where the rule's first
invocation returns a null output spec and a non-null, NONEMPTY
schema-suggestions sequence, the propagator re-invokes the same rule exactly
once, on the first suggested schema (the invocation log is `[sch, s0]`); the
returned result's output spec equals the output spec of that second
invocation, and the returned schema-suggestions sequence is the original
suggestion list unchanged. -/
theorem c1_retry_amended
    (rules : Rules) (rule : OpSchema → Except String RuleOutput) (op : String)
    (nargs : List NodeArg) (nkwargs : List (String × NodeArg)) (i : Nat)
    (m m1 m2 : Metas) (argsS : List ArgVal) (kwargsS : List (String × ArgVal))
    (sch s0 : OpSchema) (rest : List OpSchema) (fr : Option String)
    (pres : RuleOutput)
    (hrule : rules op = some rule)
    (hargs : unwrapArgs nargs m = (.ok argsS, m1))
    (hkw : unwrapKwargs nkwargs m1 = (.ok kwargsS, m2))
    (hsch : sch = .mk op argsS kwargsS)
    (hfirst : rule sch = .ok (.mk none (some (s0 :: rest)) fr))
    (hsecond : rule s0 = .ok pres) :
    run_op_prop rules op nargs nkwargs i m =
      (.ok (.mk pres.output_spec (some (s0 :: rest)) fr),
       setSharding i (.res (.mk pres.output_spec (some (s0 :: rest)) fr) none)
         (setSharding i (.res (.mk none (some (s0 :: rest)) fr) none) m2),
       [sch, s0]) := by
  subst hsch
  simp only [run_op_prop, hrule, hargs, hkw, hfirst, hsecond]

/-- C1, witness: the amended theorem applied to the fixture rule that
suggests `schS` on `schW` and resolves to `specO` on `schS`. -/
theorem c1_retry_witness :
    (run_op_prop (rulesOf ruleSuggest) "add" [.nodeRef 0] [] 1 metasW).1 =
        .ok (.mk (some specO) (some [schS]) none)
    ∧ (run_op_prop (rulesOf ruleSuggest) "add" [.nodeRef 0] [] 1 metasW).2.2 =
        [schW, schS] := by
  have h := c1_retry_amended (rulesOf ruleSuggest) ruleSuggest "add"
    [.nodeRef 0] [] 1 metasW (setSharding 0 (.spec specW) metasW)
    (setSharding 0 (.spec specW) metasW) [.spec specW] [] schW schS []
    none (.mk (some specO) none none) rfl rfl rfl rfl rfl rfl
  exact ⟨by rw [h]; rfl, by rw [h]⟩

/-! ## Claim C3: unresolvable with no alternative -/

/-- C3: for a per-node propagation where the rule returns both a null output
spec and null schema-suggestions, the propagation raises the fatal
propagation-failure error carrying the failure reason exactly when the
rule's result has a non-null failure reason; when the failure reason is also
null it succeeds with schema-suggestions `[sch]` (the original schema) and
no output spec. -/
theorem c3_unresolved_no_alt
    (rules : Rules) (rule : OpSchema → Except String RuleOutput) (op : String)
    (nargs : List NodeArg) (nkwargs : List (String × NodeArg)) (i : Nat)
    (m m1 m2 : Metas) (argsS : List ArgVal) (kwargsS : List (String × ArgVal))
    (sch : OpSchema)
    (hrule : rules op = some rule)
    (hargs : unwrapArgs nargs m = (.ok argsS, m1))
    (hkw : unwrapKwargs nkwargs m1 = (.ok kwargsS, m2))
    (hsch : sch = .mk op argsS kwargsS) :
    (∀ reason, rule sch = .ok (.mk none none (some reason)) →
       run_op_prop rules op nargs nkwargs i m =
         (.error (.propFailed op sch reason),
          setSharding i (.res (.mk none none (some reason)) none) m2, [sch]))
    ∧ (rule sch = .ok (.mk none none none) →
       run_op_prop rules op nargs nkwargs i m =
         (.ok (.mk none (some [sch]) none),
          setSharding i (.res (.mk none (some [sch]) none) none)
            (setSharding i (.res (.mk none none none) none) m2), [sch])) := by
  subst hsch
  constructor
  · intro reason hres
    simp only [run_op_prop, hrule, hargs, hkw, hres]
  · intro hres
    simp only [run_op_prop, hrule, hargs, hkw, hres]

/-- C3, witness: the theorem applied to the failure-reason stub rule and to
the scalar stub rule. -/
theorem c3_unresolved_no_alt_witness :
    (run_op_prop (rulesOf ruleReason) "add" [.nodeRef 0] [] 1 metasW).1 =
        .error (.propFailed "add" schW "shard mismatch")
    ∧ (run_op_prop (rulesOf ruleScalar) "add" [.nodeRef 0] [] 1 metasW).1 =
        .ok (.mk none (some [schW]) none) := by
  have h1 := (c3_unresolved_no_alt (rulesOf ruleReason) ruleReason "add"
    [.nodeRef 0] [] 1 metasW (setSharding 0 (.spec specW) metasW)
    (setSharding 0 (.spec specW) metasW) [.spec specW] [] schW
    rfl rfl rfl rfl).1 "shard mismatch" rfl
  have h2 := (c3_unresolved_no_alt (rulesOf ruleScalar) ruleScalar "add"
    [.nodeRef 0] [] 1 metasW (setSharding 0 (.spec specW) metasW)
    (setSharding 0 (.spec specW) metasW) [.spec specW] [] schW
    rfl rfl rfl rfl).2 rfl
  exact ⟨by rw [h1], by rw [h2]⟩

/-! ## Claim C6: the resolved case -/

/-- C6, counterexample: when the rule resolves, the node's sharding metadata
is set to the WHOLE `OutputSharding` result object, not to the output spec:
at the fixture instance the recorded metadata is the `res` object and
differs from the output spec `specO` itself. -/
theorem c6_resolved_cex :
    ((run_op_prop (rulesOf ruleResolved) "add" [.nodeRef 0] [] 1 metasW).2.1 1).sharding =
        some (.res (.mk (some specO) (some [schW]) none) none)
    ∧ some (ArgVal.res (.mk (some specO) (some [schW]) none) none) ≠
        some (ArgVal.spec specO) :=
  ⟨rfl, by simp⟩

/-- C6, amended: for every per-node propagation where the rule's first
invocation returns a non-null output spec, the result's schema-suggestions
is overwritten with the single-element sequence containing the node's input
schema, and the node's sharding metadata records the full Output Sharding
Result object (whose output-spec field is that non-null output spec). -/
theorem c6_resolved_amended
    (rules : Rules) (rule : OpSchema → Except String RuleOutput) (op : String)
    (nargs : List NodeArg) (nkwargs : List (String × NodeArg)) (i : Nat)
    (m m1 m2 : Metas) (argsS : List ArgVal) (kwargsS : List (String × ArgVal))
    (sch : OpSchema) (spec0 : DTensorSpec) (ss : Option (List OpSchema))
    (fr : Option String)
    (hrule : rules op = some rule)
    (hargs : unwrapArgs nargs m = (.ok argsS, m1))
    (hkw : unwrapKwargs nkwargs m1 = (.ok kwargsS, m2))
    (hsch : sch = .mk op argsS kwargsS)
    (hres : rule sch = .ok (.mk (some spec0) ss fr)) :
    run_op_prop rules op nargs nkwargs i m =
      (.ok (.mk (some spec0) (some [sch]) fr),
       setSharding i (.res (.mk (some spec0) (some [sch]) fr) none)
         (setSharding i (.res (.mk (some spec0) ss fr) none) m2),
       [sch])
    ∧ ((run_op_prop rules op nargs nkwargs i m).2.1 i).sharding =
        some (.res (.mk (some spec0) (some [sch]) fr) none) := by
  subst hsch
  have h : run_op_prop rules op nargs nkwargs i m =
      (.ok (.mk (some spec0) (some [.mk op argsS kwargsS]) fr),
       setSharding i
         (.res (.mk (some spec0) (some [.mk op argsS kwargsS]) fr) none)
         (setSharding i (.res (.mk (some spec0) ss fr) none) m2),
       [.mk op argsS kwargsS]) := by
    simp only [run_op_prop, hrule, hargs, hkw, hres]
  refine ⟨h, ?_⟩
  rw [h]
  simp [setSharding]

/-- C6, witness: the amended theorem applied to the resolving stub rule. -/
theorem c6_resolved_witness :
    (run_op_prop (rulesOf ruleResolved) "add" [.nodeRef 0] [] 1 metasW).1 =
        .ok (.mk (some specO) (some [schW]) none)
    ∧ ((run_op_prop (rulesOf ruleResolved) "add" [.nodeRef 0] [] 1 metasW).2.1 1).sharding =
        some (.res (.mk (some specO) (some [schW]) none) none) := by
  have h := c6_resolved_amended (rulesOf ruleResolved) ruleResolved "add"
    [.nodeRef 0] [] 1 metasW (setSharding 0 (.spec specW) metasW)
    (setSharding 0 (.spec specW) metasW) [.spec specW] [] schW specO none none
    rfl rfl rfl rfl rfl
  exact ⟨by rw [h.1], h.2⟩

/-! ## Claim C7: diagnostic wrapping of rule exceptions -/

/-- C7, counterexample: an exception raised by the SECOND (retry) invocation
escapes unwrapped — the raised error is the bare rule exception, which does
not carry the operator or the input schema (it differs from the wrapped
propagation-failure form). -/
theorem c7_wrap_cex :
    (run_op_prop (rulesOf ruleSuggestRaise) "add" [.nodeRef 0] [] 1 metasW).1 =
        .error (.ruleExn "boom2")
    ∧ PropError.ruleExn "boom2" ≠ PropError.ruleFailed "add" schW "boom2" :=
  ⟨rfl, by simp⟩

/-- C7, amended: an exception raised by the rule's FIRST invocation is
caught and re-raised as a propagation failure naming the operator, the input
schema and the underlying error; an exception raised by the second (retry)
invocation is not wrapped and escapes as the bare rule exception. -/
theorem c7_wrap_amended
    (rules : Rules) (rule : OpSchema → Except String RuleOutput) (op : String)
    (nargs : List NodeArg) (nkwargs : List (String × NodeArg)) (i : Nat)
    (m m1 m2 : Metas) (argsS : List ArgVal) (kwargsS : List (String × ArgVal))
    (sch : OpSchema)
    (hrule : rules op = some rule)
    (hargs : unwrapArgs nargs m = (.ok argsS, m1))
    (hkw : unwrapKwargs nkwargs m1 = (.ok kwargsS, m2))
    (hsch : sch = .mk op argsS kwargsS) :
    (∀ e, rule sch = .error e →
       run_op_prop rules op nargs nkwargs i m =
         (.error (.ruleFailed op sch e), m2, [sch]))
    ∧ (∀ e s0 rest fr, rule sch = .ok (.mk none (some (s0 :: rest)) fr) →
        rule s0 = .error e →
        run_op_prop rules op nargs nkwargs i m =
          (.error (.ruleExn e),
           setSharding i (.res (.mk none (some (s0 :: rest)) fr) none) m2,
           [sch, s0])) := by
  subst hsch
  constructor
  · intro e hres
    simp only [run_op_prop, hrule, hargs, hkw, hres]
  · intro e s0 rest fr hres hres2
    simp only [run_op_prop, hrule, hargs, hkw, hres, hres2]

/-- C7, witness: the amended theorem applied to the always-raising stub rule
(first invocation) and to the suggest-then-raise stub rule (second
invocation). -/
theorem c7_wrap_witness :
    (run_op_prop (rulesOf ruleRaise) "add" [.nodeRef 0] [] 1 metasW).1 =
        .error (.ruleFailed "add" schW "boom")
    ∧ (run_op_prop (rulesOf ruleSuggestRaise) "add" [.nodeRef 0] [] 1 metasW).2.2 =
        [schW, schS] := by
  have h1 := (c7_wrap_amended (rulesOf ruleRaise) ruleRaise "add"
    [.nodeRef 0] [] 1 metasW (setSharding 0 (.spec specW) metasW)
    (setSharding 0 (.spec specW) metasW) [.spec specW] [] schW
    rfl rfl rfl rfl).1 "boom" rfl
  have h2 := (c7_wrap_amended (rulesOf ruleSuggestRaise) ruleSuggestRaise "add"
    [.nodeRef 0] [] 1 metasW (setSharding 0 (.spec specW) metasW)
    (setSharding 0 (.spec specW) metasW) [.spec specW] [] schW
    rfl rfl rfl rfl).2 "boom2" schS [] none rfl rfl
  exact ⟨by rw [h1], by rw [h2]⟩

/-! ## Claim C2: refinement of direct rule invocation -/

/-- C2, counterexample: at a concrete fully supported run, the output spec
returned by `propagate` is the one-element list holding the node's recorded
raw Output Sharding Result object (with the fake output tensor metadata
injected), which is not the output spec `specO` that direct invocation of
the rule produces. -/
theorem c2_refine_cex :
    (propagate (rulesOf ruleResolved) "add" schW tmW).1 =
        .ok ⟨[.res (.mk (some specO) (some [schW]) none) (some tmW)], some [schW]⟩
    ∧ [ArgVal.res (.mk (some specO) (some [schW]) none) (some tmW)] ≠
        [ArgVal.spec specO] :=
  ⟨rfl, by simp⟩

/-- C2, amended: for every operator with a registered rule and operand specs
it fully supports (rule resolves on the schema built from the operands, all
spec operands carrying tensor metadata), `propagate` invokes the rule once
on the equivalent flat schema and returns a result whose schema-suggestions
is the single-element sequence containing the input schema and whose
output-spec sequence is the one-element list holding the call node's
recorded Output Sharding Result object (with the fake output metadata
injected); that object's own output-spec field equals the output spec the
direct invocation produces. -/
theorem c2_refine_amended
    (rules : Rules) (rule : OpSchema → Except String RuleOutput) (op : String)
    (args : List ArgVal) (kwargs : List (String × ArgVal)) (outM : TensorMeta)
    (spec0 : DTensorSpec) (ss : Option (List OpSchema)) (fr : Option String)
    (hrule : rules op = some rule)
    (hmeta : ∀ s, ArgVal.spec s ∈ flattenSchemas args kwargs →
      ∃ tm, s.tensor_meta = some tm)
    (hres : rule (.mk op args kwargs) = .ok (.mk (some spec0) ss fr)) :
    (propagate rules op (.mk op args kwargs) outM).1 =
        .ok ⟨[.res (.mk (some spec0) (some [.mk op args kwargs]) fr) (some outM)],
             some [.mk op args kwargs]⟩
    ∧ (propagate rules op (.mk op args kwargs) outM).2.2 =
        [OpSchema.mk op args kwargs] := by
  have hargsU : unwrapArgs (mkRefs 0 args)
      (attachPh 0 (flattenSchemas args kwargs)
        (get_isolated_graphmodule op args kwargs outM).2) =
      (.ok args, attachPh 0 (flattenSchemas args kwargs)
        (get_isolated_graphmodule op args kwargs outM).2) :=
    unwrap_mkRefs args 0 _ (align_args op args kwargs outM hmeta)
  have hkwU : unwrapKwargs (mkKwRefs args.length kwargs)
      (attachPh 0 (flattenSchemas args kwargs)
        (get_isolated_graphmodule op args kwargs outM).2) =
      (.ok kwargs, attachPh 0 (flattenSchemas args kwargs)
        (get_isolated_graphmodule op args kwargs outM).2) :=
    unwrap_mkKwRefs kwargs args.length _ (align_kwargs op args kwargs outM hmeta)
  have hrun : run_op_prop rules op (mkRefs 0 args) (mkKwRefs args.length kwargs)
      (flattenSchemas args kwargs).length
      (attachPh 0 (flattenSchemas args kwargs)
        (get_isolated_graphmodule op args kwargs outM).2) =
      (.ok (.mk (some spec0) (some [.mk op args kwargs]) fr),
       setSharding (flattenSchemas args kwargs).length
         (.res (.mk (some spec0) (some [.mk op args kwargs]) fr) none)
         (setSharding (flattenSchemas args kwargs).length
           (.res (.mk (some spec0) ss fr) none)
           (attachPh 0 (flattenSchemas args kwargs)
             (get_isolated_graphmodule op args kwargs outM).2)),
       [OpSchema.mk op args kwargs]) := by
    simp only [run_op_prop, hrule, hargsU, hkwU, hres]
  have hm2sh : (setSharding (flattenSchemas args kwargs).length
      (.res (.mk (some spec0) (some [.mk op args kwargs]) fr) none)
      (setSharding (flattenSchemas args kwargs).length
        (.res (.mk (some spec0) ss fr) none)
        (attachPh 0 (flattenSchemas args kwargs)
          (get_isolated_graphmodule op args kwargs outM).2))
      (flattenSchemas args kwargs).length).sharding =
      some (.res (.mk (some spec0) (some [.mk op args kwargs]) fr) none) := by
    simp [setSharding]
  have hm2tm : (setSharding (flattenSchemas args kwargs).length
      (.res (.mk (some spec0) (some [.mk op args kwargs]) fr) none)
      (setSharding (flattenSchemas args kwargs).length
        (.res (.mk (some spec0) ss fr) none)
        (attachPh 0 (flattenSchemas args kwargs)
          (get_isolated_graphmodule op args kwargs outM).2))
      (flattenSchemas args kwargs).length).tensor_meta = some outM := by
    rw [setSharding_tensor_meta, setSharding_tensor_meta,
      attachPh_outside _ 0 _ _ (Or.inr (by omega)), builder_meta_call]
  have hun : unwrap_spec_from_node (flattenSchemas args kwargs).length
      (setSharding (flattenSchemas args kwargs).length
        (.res (.mk (some spec0) (some [.mk op args kwargs]) fr) none)
        (setSharding (flattenSchemas args kwargs).length
          (.res (.mk (some spec0) ss fr) none)
          (attachPh 0 (flattenSchemas args kwargs)
            (get_isolated_graphmodule op args kwargs outM).2))) =
      (.ok (.res (.mk (some spec0) (some [.mk op args kwargs]) fr) (some outM)),
       setSharding (flattenSchemas args kwargs).length
         (.res (.mk (some spec0) (some [.mk op args kwargs]) fr) (some outM))
         (setSharding (flattenSchemas args kwargs).length
           (.res (.mk (some spec0) (some [.mk op args kwargs]) fr) none)
           (setSharding (flattenSchemas args kwargs).length
             (.res (.mk (some spec0) ss fr) none)
             (attachPh 0 (flattenSchemas args kwargs)
               (get_isolated_graphmodule op args kwargs outM).2)))) := by
    unfold unwrap_spec_from_node
    rw [hm2sh, hm2tm]
  have hfull : propagate rules op (.mk op args kwargs) outM =
      (.ok ⟨[.res (.mk (some spec0) (some [.mk op args kwargs]) fr) (some outM)],
            some [.mk op args kwargs]⟩,
       setSharding (flattenSchemas args kwargs).length
         (.res (.mk (some spec0) (some [.mk op args kwargs]) fr) (some outM))
         (setSharding (flattenSchemas args kwargs).length
           (.res (.mk (some spec0) (some [.mk op args kwargs]) fr) none)
           (setSharding (flattenSchemas args kwargs).length
             (.res (.mk (some spec0) ss fr) none)
             (attachPh 0 (flattenSchemas args kwargs)
               (get_isolated_graphmodule op args kwargs outM).2))),
       [OpSchema.mk op args kwargs]) := by
    rw [propagate_canonical rules op op args kwargs outM hmeta, hrun]
    simp only [unwrapNodes, hun, RuleOutput.schema_suggestions]
  exact ⟨by rw [hfull], by rw [hfull]⟩

/-- C2, witness: the amended theorem applied at the fixture instance. -/
theorem c2_refine_witness :
    (propagate (rulesOf ruleResolved) "add" schW tmW).1 =
        .ok ⟨[.res (.mk (some specO) (some [schW]) none) (some tmW)], some [schW]⟩
    ∧ (propagate (rulesOf ruleResolved) "add" schW tmW).2.2 = [schW] := by
  have h := c2_refine_amended (rulesOf ruleResolved) ruleResolved "add"
    [.spec specW] [] tmW specO none none rfl
    (by
      intro s hs
      simp only [flattenSchemas, List.map_nil, List.append_nil,
        List.mem_singleton] at hs
      cases hs
      exact ⟨tmW, rfl⟩)
    rfl
  exact ⟨h.1, h.2⟩

/-! ## Claim C4: unregistered operator -/

/-- C4, counterexample: `propagate` on an operator with no registered rule
raises the unimplemented-rule condition naming the operator, but the trial
graph IS mutated first: the placeholder node's sharding metadata, `none` as
built, has been set to the operand spec by the time the error is raised. -/
theorem c4_unimplemented_cex :
    (propagate (rulesOf ruleResolved) "mul" schW tmW).1 =
        .error (.notImplemented "mul")
    ∧ ((get_isolated_graphmodule "mul" [.spec specW] [] tmW).2 0).sharding = none
    ∧ ((propagate (rulesOf ruleResolved) "mul" schW tmW).2.1 0).sharding =
        some (.spec specW) :=
  ⟨rfl, rfl, rfl⟩

/-- C4, amended: for every operator with no registered rule, `propagate`
raises the unimplemented-rule condition naming the operator, no rule is ever
invoked (empty invocation log), and the computational node's metadata is
never written; the placeholder nodes' sharding metadata, however, has
already been attached by the walk before the error is raised. -/
theorem c4_unimplemented_amended
    (rules : Rules) (op schf : String) (args : List ArgVal)
    (kwargs : List (String × ArgVal)) (outM : TensorMeta)
    (hnorule : rules op = none)
    (hmeta : ∀ s, ArgVal.spec s ∈ flattenSchemas args kwargs →
      ∃ tm, s.tensor_meta = some tm) :
    (propagate rules op (.mk schf args kwargs) outM).1 =
        .error (.notImplemented op)
    ∧ (propagate rules op (.mk schf args kwargs) outM).2.2 = []
    ∧ ((propagate rules op (.mk schf args kwargs) outM).2.1
        (flattenSchemas args kwargs).length).sharding = none := by
  have hrun : run_op_prop rules op (mkRefs 0 args) (mkKwRefs args.length kwargs)
      (flattenSchemas args kwargs).length
      (attachPh 0 (flattenSchemas args kwargs)
        (get_isolated_graphmodule op args kwargs outM).2) =
      (.error (.notImplemented op),
       attachPh 0 (flattenSchemas args kwargs)
         (get_isolated_graphmodule op args kwargs outM).2, []) := by
    simp only [run_op_prop, hnorule]
  have hfull : propagate rules op (.mk schf args kwargs) outM =
      (.error (.notImplemented op),
       attachPh 0 (flattenSchemas args kwargs)
         (get_isolated_graphmodule op args kwargs outM).2, []) := by
    rw [propagate_canonical rules op schf args kwargs outM hmeta, hrun]
  refine ⟨by rw [hfull], by rw [hfull], ?_⟩
  rw [hfull]
  show (attachPh 0 (flattenSchemas args kwargs)
    (get_isolated_graphmodule op args kwargs outM).2
    (flattenSchemas args kwargs).length).sharding = none
  rw [attachPh_outside _ 0 _ _ (Or.inr (by omega)), builder_meta_call]

/-- C4, witness: the amended theorem applied at the fixture instance. -/
theorem c4_unimplemented_witness :
    (propagate (rulesOf ruleResolved) "mul" schW tmW).1 =
        .error (.notImplemented "mul")
    ∧ (propagate (rulesOf ruleResolved) "mul" schW tmW).2.2 = [] := by
  have h := c4_unimplemented_amended (rulesOf ruleResolved) "mul" "add"
    [.spec specW] [] tmW rfl
    (by
      intro s hs
      simp only [flattenSchemas, List.map_nil, List.append_nil,
        List.mem_singleton] at hs
      cases hs
      exact ⟨tmW, rfl⟩)
  exact ⟨h.1, h.2.1⟩

/-! ## Claim C8: the placeholder-count invariant -/

/-- Placeholder count of an attach-phase prefix. -/
theorem countPh_phNodes (es : List ArgVal) (rest : List Node) :
    countPlaceholders (phNodes es ++ rest) = es.length + countPlaceholders rest := by
  induction es with
  | nil => simp [phNodes, countPlaceholders]
  | cons e rest' ih =>
    show countPlaceholders (⟨.placeholder, [], []⟩ :: (phNodes rest' ++ rest)) = _
    simp only [countPlaceholders, ih, List.length_cons]
    omega

/-- C8, counterexample: a flat operand list with MORE entries than the trial
graph has placeholder nodes is accepted silently — the run succeeds and the
surplus entry is ignored, refuting "any mismatch causes a fatal error". -/
theorem c8_count_cex :
    (run_graph_prop (rulesOf ruleResolved)
      ((get_isolated_graphmodule "add" [.spec specW] [] tmW).1)
      [.spec specW, .plain 7]
      ((get_isolated_graphmodule "add" [.spec specW] [] tmW).2)).1 =
        .ok ⟨[.res (.mk (some specO) (some [schW]) none) (some tmW)], some [schW]⟩
    ∧ countPlaceholders ((get_isolated_graphmodule "add" [.spec specW] [] tmW).1) = 1
    ∧ ([ArgVal.spec specW, ArgVal.plain 7] : List ArgVal).length = 2 :=
  ⟨rfl, rfl, rfl⟩

/-- C8, amended: the trial graph built for a propagation call has exactly as
many placeholder nodes as the flattened operand entries (builder guarantee);
feeding the walk FEWER flat entries than placeholders raises `IndexError`
at the first out-of-range placeholder, while SURPLUS entries beyond the
placeholder count are silently ignored (the run is unchanged), not rejected. -/
theorem c8_count_amended
    (rules : Rules) (op : String) (args : List ArgVal)
    (kwargs : List (String × ArgVal)) (outM : TensorMeta)
    (flat extra : List ArgVal) (m : Metas) :
    countPlaceholders (get_isolated_graphmodule op args kwargs outM).1 =
        (flattenSchemas args kwargs).length
    ∧ (flat.length < (flattenSchemas args kwargs).length →
        (run_graph_prop rules (get_isolated_graphmodule op args kwargs outM).1
          flat m).1 = .error .indexError)
    ∧ run_graph_prop rules (get_isolated_graphmodule op args kwargs outM).1
          (flattenSchemas args kwargs ++ extra) m =
        run_graph_prop rules (get_isolated_graphmodule op args kwargs outM).1
          (flattenSchemas args kwargs) m := by
  have hnoph : ∀ n ∈ ([⟨.call_function op, mkRefs 0 args, mkKwRefs args.length kwargs⟩]
      ++ [(⟨.output, [.nodeRef (flattenSchemas args kwargs).length], []⟩ : Node)]),
      n.op ≠ NodeOp.placeholder := by
    intro n hn
    rcases List.mem_append.mp hn with h | h <;>
      rw [List.mem_singleton.mp h] <;> simp
  refine ⟨?_, ?_, ?_⟩
  · rw [builder_graph_eq, countPh_phNodes]
    rfl
  · intro hlt
    rw [builder_graph_eq]
    obtain ⟨st', hst⟩ := walk_ph_overflow rules flat (flattenSchemas args kwargs)
      ([⟨.call_function op, mkRefs 0 args, mkKwRefs args.length kwargs⟩]
        ++ [⟨.output, [.nodeRef (flattenSchemas args kwargs).length], []⟩])
      ⟨0, 0, none, none, m, []⟩ (by simpa using hlt) (Nat.zero_le _)
    unfold run_graph_prop
    rw [hst]
  · rw [builder_graph_eq]
    unfold run_graph_prop
    rw [walk_ph rules (flattenSchemas args kwargs ++ extra)
        (flattenSchemas args kwargs) extra _ ⟨0, 0, none, none, m, []⟩ (by simp),
      walk_ph rules (flattenSchemas args kwargs)
        (flattenSchemas args kwargs) [] _ ⟨0, 0, none, none, m, []⟩ (by simp),
      walk_noph rules (flattenSchemas args kwargs ++ extra)
        (flattenSchemas args kwargs) _ _ hnoph]

/-- C8, witness: the amended theorem applied at the fixture instance. -/
theorem c8_count_witness :
    countPlaceholders ((get_isolated_graphmodule "add" [.spec specW] [] tmW).1) =
      (flattenSchemas [.spec specW] []).length
    ∧ (run_graph_prop (rulesOf ruleResolved)
        ((get_isolated_graphmodule "add" [.spec specW] [] tmW).1) [] metasW).1 =
      .error .indexError := by
  have h := c8_count_amended (rulesOf ruleResolved) "add" [.spec specW] [] tmW
    [] [] metasW
  exact ⟨h.1, h.2.1 (by simp [flattenSchemas])⟩

/-! ## Claim C9: immutability of operand specs -/

/-- `SpecFrom` is reflexive. -/
theorem specFrom_refl (m : Metas) (flat : List ArgVal) : SpecFrom m m flat :=
  fun _ s' h => Or.inl ⟨s', h, rfl⟩

/-- `SpecFrom` composes. -/
theorem specFrom_trans {m1 m2 m3 : Metas} {flat : List ArgVal}
    (h12 : SpecFrom m1 m2 flat) (h23 : SpecFrom m2 m3 flat) :
    SpecFrom m1 m3 flat := by
  intro j s' h3
  rcases h23 j s' h3 with ⟨s, hs, hpl⟩ | ⟨s, hs, hpl⟩
  · rcases h12 j s hs with ⟨s0, hs0, hpl0⟩ | ⟨s0, hs0, hpl0⟩
    · exact Or.inl ⟨s0, hs0, hpl0.trans hpl⟩
    · exact Or.inr ⟨s0, hs0, hpl0.trans hpl⟩
  · exact Or.inr ⟨s, hs, hpl⟩

/-- Writing a raw result object as a node's sharding introduces no new spec. -/
theorem specFrom_set_res (i : Nat) (o : RuleOutput) (tmv : Option TensorMeta)
    (m : Metas) (flat : List ArgVal) :
    SpecFrom m (setSharding i (.res o tmv) m) flat := by
  intro j s' h
  unfold setSharding at h
  by_cases hj : j = i
  · simp [hj] at h
  · simp [hj] at h
    exact Or.inl ⟨s', h, rfl⟩

/-- Attaching a flat-entry spec to a node is provenance from the flat list. -/
theorem specFrom_set_spec (i : Nat) (s : DTensorSpec) (m : Metas)
    (flat : List ArgVal) (hmem : ArgVal.spec s ∈ flat) :
    SpecFrom m (setSharding i (.spec s) m) flat := by
  intro j s' h
  unfold setSharding at h
  by_cases hj : j = i
  · simp [hj] at h
    exact Or.inr ⟨s, hmem, by rw [h]⟩
  · simp [hj] at h
    exact Or.inl ⟨s', h, rfl⟩

/-- `unwrap_spec_from_node` only overwrites the spec's tensor metadata: the
placements of every attached spec are preserved. -/
theorem specFrom_unwrap (i : Nat) (m : Metas) (flat : List ArgVal) :
    SpecFrom m (unwrap_spec_from_node i m).2 flat := by
  unfold unwrap_spec_from_node
  cases hsh : (m i).sharding with
  | none => exact specFrom_refl m flat
  | some sh =>
    cases htm : (m i).tensor_meta with
    | none => exact specFrom_refl m flat
    | some tm =>
      cases sh with
      | plain v => exact specFrom_refl m flat
      | res o tmv => exact specFrom_set_res i o (some tm) m flat
      | spec s =>
        intro j s' h
        unfold setSharding at h
        by_cases hj : j = i
        · simp [hj] at h
          exact Or.inl ⟨s, by rw [← hj] at hsh; exact hsh, by rw [← h]⟩
        · simp [hj] at h
          exact Or.inl ⟨s', h, rfl⟩

/-- Output extraction preserves placements. -/
theorem specFrom_unwrapNodes (js : List Nat) (m : Metas) (flat : List ArgVal) :
    SpecFrom m (unwrapNodes js m).2 flat := by
  induction js generalizing m with
  | nil => exact specFrom_refl m flat
  | cons j rest ih =>
    rcases h1 : unwrap_spec_from_node j m with ⟨res, m'⟩
    have hA : SpecFrom m m' flat := by
      have := specFrom_unwrap j m flat
      rw [h1] at this
      exact this
    cases res with
    | error e =>
      simp only [unwrapNodes, h1]
      exact hA
    | ok a =>
      rcases h2 : unwrapNodes rest m' with ⟨res2, m2⟩
      have hB : SpecFrom m' m2 flat := by
        have := ih m'
        rw [h2] at this
        exact this
      cases res2 with
      | error e =>
        simp only [unwrapNodes, h1, h2]
        exact specFrom_trans hA hB
      | ok l =>
        simp only [unwrapNodes, h1, h2]
        exact specFrom_trans hA hB

/-- Per-node schema construction (positional arguments) preserves placements. -/
theorem specFrom_unwrapArgs (nargs : List NodeArg) (m : Metas)
    (flat : List ArgVal) : SpecFrom m (unwrapArgs nargs m).2 flat := by
  induction nargs generalizing m with
  | nil => exact specFrom_refl m flat
  | cons na rest ih =>
    cases na with
    | const a =>
      show SpecFrom m (unwrapArgs (.const a :: rest) m).2 flat
      rcases h2 : unwrapArgs rest m with ⟨res2, m2⟩
      have hB : SpecFrom m m2 flat := by
        have := ih m
        rw [h2] at this
        exact this
      simp only [unwrapArgs, h2]
      cases res2 with
      | error e => exact hB
      | ok l => exact hB
    | nodeRef i =>
      rcases h1 : unwrap_spec_from_node i m with ⟨res, m'⟩
      have hA : SpecFrom m m' flat := by
        have := specFrom_unwrap i m flat
        rw [h1] at this
        exact this
      cases res with
      | error e =>
        simp only [unwrapArgs, h1]
        exact hA
      | ok a =>
        rcases h2 : unwrapArgs rest m' with ⟨res2, m2⟩
        have hB : SpecFrom m' m2 flat := by
          have := ih m'
          rw [h2] at this
          exact this
        cases res2 with
        | error e =>
          simp only [unwrapArgs, h1, h2]
          exact specFrom_trans hA hB
        | ok l =>
          simp only [unwrapArgs, h1, h2]
          exact specFrom_trans hA hB

/-- Per-node schema construction (keyword arguments) preserves placements. -/
theorem specFrom_unwrapKwargs (nkwargs : List (String × NodeArg)) (m : Metas)
    (flat : List ArgVal) : SpecFrom m (unwrapKwargs nkwargs m).2 flat := by
  induction nkwargs generalizing m with
  | nil => exact specFrom_refl m flat
  | cons ka rest ih =>
    obtain ⟨k, na⟩ := ka
    cases na with
    | const a =>
      rcases h2 : unwrapKwargs rest m with ⟨res2, m2⟩
      have hB : SpecFrom m m2 flat := by
        have := ih m
        rw [h2] at this
        exact this
      simp only [unwrapKwargs, h2]
      cases res2 with
      | error e => exact hB
      | ok l => exact hB
    | nodeRef i =>
      rcases h1 : unwrap_spec_from_node i m with ⟨res, m'⟩
      have hA : SpecFrom m m' flat := by
        have := specFrom_unwrap i m flat
        rw [h1] at this
        exact this
      cases res with
      | error e =>
        simp only [unwrapKwargs, h1]
        exact hA
      | ok a =>
        rcases h2 : unwrapKwargs rest m' with ⟨res2, m2⟩
        have hB : SpecFrom m' m2 flat := by
          have := ih m'
          rw [h2] at this
          exact this
        cases res2 with
        | error e =>
          simp only [unwrapKwargs, h1, h2]
          exact specFrom_trans hA hB
        | ok l =>
          simp only [unwrapKwargs, h1, h2]
          exact specFrom_trans hA hB

/-- Per-node propagation preserves placements (it writes only raw result
objects and tensor metadata). -/
theorem specFrom_run_op_prop (rules : Rules) (op : String)
    (nargs : List NodeArg) (nkwargs : List (String × NodeArg)) (i : Nat)
    (m : Metas) (flat : List ArgVal) :
    SpecFrom m (run_op_prop rules op nargs nkwargs i m).2.1 flat := by
  cases hrules : rules op with
  | none =>
    simp only [run_op_prop, hrules]
    exact specFrom_refl m flat
  | some rule =>
    rcases hA : unwrapArgs nargs m with ⟨resA, m1⟩
    have h1 : SpecFrom m m1 flat := by
      have := specFrom_unwrapArgs nargs m flat
      rw [hA] at this
      exact this
    cases resA with
    | error e =>
      simp only [run_op_prop, hrules, hA]
      exact h1
    | ok args_schema =>
      rcases hK : unwrapKwargs nkwargs m1 with ⟨resK, m2⟩
      have h2 : SpecFrom m m2 flat := by
        have := specFrom_unwrapKwargs nkwargs m1 flat
        rw [hK] at this
        exact specFrom_trans h1 this
      cases resK with
      | error e =>
        simp only [run_op_prop, hrules, hA, hK]
        exact h2
      | ok kwargs_schema =>
        cases hr : rule (.mk op args_schema kwargs_schema) with
        | error e =>
          simp only [run_op_prop, hrules, hA, hK, hr]
          exact h2
        | ok os0 =>
          rcases os0 with ⟨ospec, osugg, ofr⟩
          cases ospec with
          | some spec0 =>
            simp only [run_op_prop, hrules, hA, hK, hr]
            exact specFrom_trans h2 (specFrom_trans
              (specFrom_set_res i _ none m2 flat)
              (specFrom_set_res i _ none _ flat))
          | none =>
            cases osugg with
            | none =>
              cases ofr with
              | some reason =>
                simp only [run_op_prop, hrules, hA, hK, hr]
                exact specFrom_trans h2 (specFrom_set_res i _ none m2 flat)
              | none =>
                simp only [run_op_prop, hrules, hA, hK, hr]
                exact specFrom_trans h2 (specFrom_trans
                  (specFrom_set_res i _ none m2 flat)
                  (specFrom_set_res i _ none _ flat))
            | some suggestions =>
              cases suggestions with
              | nil =>
                simp only [run_op_prop, hrules, hA, hK, hr]
                exact specFrom_trans h2 (specFrom_set_res i _ none m2 flat)
              | cons s0 srest =>
                cases hr2 : rule s0 with
                | error e =>
                  simp only [run_op_prop, hrules, hA, hK, hr, hr2]
                  exact specFrom_trans h2 (specFrom_set_res i _ none m2 flat)
                | ok pres =>
                  simp only [run_op_prop, hrules, hA, hK, hr, hr2]
                  exact specFrom_trans h2 (specFrom_trans
                    (specFrom_set_res i _ none m2 flat)
                    (specFrom_set_res i _ none _ flat))

/-- The graph walk preserves placements: new specs come only from the flat
operand entries. -/
theorem specFrom_walk (rules : Rules) (flat : List ArgVal) (ns : List Node)
    (st : WalkState) :
    SpecFrom st.metas (walkNodes rules flat ns st).1.metas flat := by
  induction ns generalizing st with
  | nil => exact specFrom_refl st.metas flat
  | cons node rest ih =>
    cases hop : node.op with
    | placeholder =>
      simp only [walkNodes, hop]
      cases hfa : flat[st.pidx]? with
      | none => exact specFrom_refl st.metas flat
      | some a =>
        cases a with
        | spec s =>
          have hmem : ArgVal.spec s ∈ flat := List.getElem?_mem hfa
          exact specFrom_trans (specFrom_set_spec st.idx s st.metas flat hmem)
            (ih _)
        | plain v => exact ih _
        | res o tmv => exact ih _
    | call_function t =>
      simp only [walkNodes, hop]
      rcases hro : run_op_prop rules t node.args node.kwargs st.idx st.metas with
        ⟨res, m', lg⟩
      have hA : SpecFrom st.metas m' flat := by
        have := specFrom_run_op_prop rules t node.args node.kwargs st.idx
          st.metas flat
        rw [hro] at this
        exact this
      cases res with
      | error e => exact hA
      | ok os => exact specFrom_trans hA (ih _)
    | output =>
      simp only [walkNodes, hop]
      rcases hun : unwrapNodes (outputNodeRefs node.args) st.metas with ⟨res, m'⟩
      have hA : SpecFrom st.metas m' flat := by
        have := specFrom_unwrapNodes (outputNodeRefs node.args) st.metas flat
        rw [hun] at this
        exact this
      cases res with
      | error e => exact hA
      | ok l => exact specFrom_trans hA (ih _)
    | other kind =>
      simp only [walkNodes, hop]
      exact specFrom_refl st.metas flat

/-- C9, counterexample: `unwrap_spec_from_node` (cited by the claim) DOES
modify a field of an attached Operand Spec: it overwrites the spec's
tensor-metadata field with the node's `meta["tensor_meta"]` — here turning a
spec without tensor metadata into one with it. -/
theorem c9_immutable_cex :
    ((unwrap_spec_from_node 0 metasMut).2 0).sharding =
        some (.spec ⟨[.shard 0], some tmW⟩)
    ∧ (metasMut 0).sharding = some (.spec ⟨[.shard 0], none⟩)
    ∧ (⟨[.shard 0], some tmW⟩ : DTensorSpec) ≠ ⟨[.shard 0], none⟩ :=
  ⟨rfl, rfl, by simp⟩

/-- C9, amended: no operation of the propagator modifies the PARTITIONING of
an Operand Spec — every spec attached to a node after a graph walk has the
placements of a spec previously attached at that node or of a flat operand
entry, and per-node propagation on its own introduces no spec whose
placements were not already attached (the only field mutation anywhere is
`unwrap_spec_from_node` overwriting the spec's tensor-metadata field). -/
theorem c9_immutable_amended
    (rules : Rules) (g : List Node) (flat : List ArgVal) (m : Metas)
    (op : String) (nargs : List NodeArg) (nkwargs : List (String × NodeArg))
    (i : Nat) :
    SpecFrom m (run_graph_prop rules g flat m).2.1 flat
    ∧ SpecFrom m (run_op_prop rules op nargs nkwargs i m).2.1 [] := by
  constructor
  · unfold run_graph_prop
    rcases hw : walkNodes rules flat g ⟨0, 0, none, none, m, []⟩ with ⟨st, err⟩
    have hA : SpecFrom m st.metas flat := by
      have := specFrom_walk rules flat g ⟨0, 0, none, none, m, []⟩
      rw [hw] at this
      exact this
    obtain ⟨idx, pidx, osh, ospv, mets, lg⟩ := st
    cases err with
    | some e => exact hA
    | none =>
      cases ospv with
      | none => exact hA
      | some l =>
        cases osh with
        | none => exact hA
        | some os => exact hA
  · exact specFrom_run_op_prop rules op nargs nkwargs i m []

/-- C9, witness: the amended theorem applied at a concrete run — the spec
attached at node 0 after the walk has the placements of the flat entry. -/
theorem c9_immutable_witness :
    (∃ s, (((fun _ => ⟨none, none⟩ : Metas)) 0).sharding = some (.spec s) ∧
      s.placements = [Placement.shard 0]) ∨
    (∃ s, ArgVal.spec s ∈ ([.spec specW] : List ArgVal) ∧
      s.placements = [Placement.shard 0]) := by
  have h := (c9_immutable_amended (rulesOf ruleResolved)
    [⟨.placeholder, [], []⟩] [.spec specW] (fun _ => ⟨none, none⟩)
    "add" [] [] 0).1 0 specW rfl
  exact h

/-! ## Claim C10: a result requires a computational node -/

/-- C10: the graph walk returns an Output Sharding Result only when the
trial graph has at least one `call_function` node — with none, the final
combining step dereferences the absent last result and fails (for the
placeholder-plus-output graph, with an `AttributeError` on
`None.schema_suggestions`); and every result the walk does return carries
the schema-suggestions held by the walk's `output_sharding` variable, i.e.
those of the last computational node processed. -/
theorem c10_requires_call :
    (∀ (rules : Rules) (g : List Node) (flat : List ArgVal) (m : Metas),
      (∀ n ∈ g, ∀ t, n.op ≠ .call_function t) →
      ∀ r, (run_graph_prop rules g flat m).1 ≠ .ok r)
    ∧ (∀ (rules : Rules) (g : List Node) (flat : List ArgVal) (m : Metas)
        (r : GraphOutput),
        (run_graph_prop rules g flat m).1 = .ok r →
        ∃ os, (walkNodes rules flat g ⟨0, 0, none, none, m, []⟩).1.output_sharding
            = some os
          ∧ r.schema_suggestions = os.schema_suggestions)
    ∧ (run_graph_prop (rulesOf ruleResolved)
        [⟨.placeholder, [], []⟩, ⟨.output, [.nodeRef 0], []⟩]
        [.spec specW] (fun _ => ⟨none, some tmW⟩)).1 =
        .error (.attributeError "schema_suggestions") := by
  refine ⟨?_, ?_, rfl⟩
  · intro rules g flat m hnc r
    have hos := walk_nocall rules flat g ⟨0, 0, none, none, m, []⟩ hnc rfl
    unfold run_graph_prop
    rcases hw : walkNodes rules flat g ⟨0, 0, none, none, m, []⟩ with ⟨st, err⟩
    rw [hw] at hos
    obtain ⟨idx, pidx, osh, ospv, mets, lg⟩ := st
    have hosh : osh = none := hos
    subst hosh
    cases err with
    | some e => simp
    | none =>
      cases ospv with
      | none => simp
      | some l => simp
  · intro rules g flat m r h
    unfold run_graph_prop at h
    rcases hw : walkNodes rules flat g ⟨0, 0, none, none, m, []⟩ with ⟨st, err⟩
    rw [hw] at h
    obtain ⟨idx, pidx, osh, ospv, mets, lg⟩ := st
    cases err with
    | some e => simp at h
    | none =>
      cases ospv with
      | none => simp at h
      | some l =>
        cases osh with
        | none => simp at h
        | some os =>
          refine ⟨os, rfl, ?_⟩
          have hr : (⟨l, os.schema_suggestions⟩ : GraphOutput) = r := by
            simpa using h
          rw [← hr]

/-- C10, witness: both general conjuncts applied at concrete runs — the
no-call graph refuses a concrete result, and a resolved single-operation run
carries the call node's suggestions. -/
theorem c10_requires_call_witness :
    (run_graph_prop (rulesOf ruleResolved)
        [⟨.placeholder, [], []⟩, ⟨.output, [.nodeRef 0], []⟩]
        [.spec specW] (fun _ => ⟨none, some tmW⟩)).1 ≠
      .ok ⟨[.spec specW], none⟩
    ∧ ∃ os,
        (walkNodes (rulesOf ruleResolved) [.spec specW]
            ((get_isolated_graphmodule "add" [.spec specW] [] tmW).1)
            ⟨0, 0, none, none,
              (get_isolated_graphmodule "add" [.spec specW] [] tmW).2, []⟩).1.output_sharding
          = some os
        ∧ (some [schW] : Option (List OpSchema)) = os.schema_suggestions := by
  constructor
  · exact c10_requires_call.1 (rulesOf ruleResolved)
      [⟨.placeholder, [], []⟩, ⟨.output, [.nodeRef 0], []⟩]
      [.spec specW] (fun _ => ⟨none, some tmW⟩)
      (by
        intro n hn t
        rcases List.mem_cons.mp hn with h | h
        · subst h
          simp
        · rw [List.mem_singleton] at h
          subst h
          simp)
      ⟨[.spec specW], none⟩
  · exact c10_requires_call.2.1 (rulesOf ruleResolved)
      ((get_isolated_graphmodule "add" [.spec specW] [] tmW).1)
      [.spec specW]
      ((get_isolated_graphmodule "add" [.spec specW] [] tmW).2)
      ⟨[.res (.mk (some specO) (some [schW]) none) (some tmW)], some [schW]⟩
      rfl

/-! ## Claim C5: the caching decorator -/

/-- C5: a cache hit returns the stored result with no rule invocation (empty
log) and an unchanged cache; a cache miss delegates to the wrapped
propagator, stores the result keyed by the schema, and returns it, and a
second call with an equal schema then returns a result equal to the first
call's without invoking any rule. -/
theorem c5_cache_behaviour (rules : Rules)
    (cache : List (OpSchema × GraphOutput)) (op : String) (sch : OpSchema)
    (outM : TensorMeta) (r : GraphOutput) :
    (lookupCache cache sch = some r →
       cachedPropagate rules cache op sch outM = (.ok r, cache, []))
    ∧ (lookupCache cache sch = none →
        (propagate rules op sch outM).1 = .ok r →
        cachedPropagate rules cache op sch outM =
          (.ok r, (sch, r) :: cache, (propagate rules op sch outM).2.2)
        ∧ cachedPropagate rules ((sch, r) :: cache) op sch outM =
          (.ok r, (sch, r) :: cache, [])) := by
  constructor
  · intro h
    unfold cachedPropagate
    rw [h]
  · intro hnone hok
    constructor
    · unfold cachedPropagate
      rw [hnone]
      rcases hp : propagate rules op sch outM with ⟨res, m, lg⟩
      rw [hp] at hok
      cases res with
      | error e => simp at hok
      | ok r0 =>
        have hr0 : r0 = r := by simpa using hok
        subst hr0
        rfl
    · unfold cachedPropagate
      rw [show lookupCache ((sch, r) :: cache) sch = some r by
        unfold lookupCache
        rw [opSchemaBeq_refl sch]
        rfl]

/-- C5, witness: the theorem applied at the fixture instance — a miss that
stores, then a hit that returns the stored result without invoking the rule. -/
theorem c5_cache_behaviour_witness :
    cachedPropagate (rulesOf ruleResolved) [] "add" schW tmW =
      (.ok ⟨[.res (.mk (some specO) (some [schW]) none) (some tmW)], some [schW]⟩,
       [(schW, ⟨[.res (.mk (some specO) (some [schW]) none) (some tmW)], some [schW]⟩)],
       [schW])
    ∧ cachedPropagate (rulesOf ruleResolved)
        [(schW, ⟨[.res (.mk (some specO) (some [schW]) none) (some tmW)], some [schW]⟩)]
        "add" schW tmW =
      (.ok ⟨[.res (.mk (some specO) (some [schW]) none) (some tmW)], some [schW]⟩,
       [(schW, ⟨[.res (.mk (some specO) (some [schW]) none) (some tmW)], some [schW]⟩)],
       []) := by
  have h := (c5_cache_behaviour (rulesOf ruleResolved) [] "add" schW tmW
    ⟨[.res (.mk (some specO) (some [schW]) none) (some tmW)], some [schW]⟩).2
    rfl rfl
  exact ⟨h.1, h.2⟩

end ShardingProp
